import Mathlib

/-!
# TinyWebServer: bounded blocking queue and connection pool

A shallow embedding of `log/block_queue.h`, `lock/locker.h` and
`CGImysql/sql_connection_pool.cpp`, followed by theorems about it.

Conventions of the embedding.

* C++ `int` fields are `Int`; `%` and `/` are the truncating `Int.tmod` and
  `Int.tdiv`, and a remainder by zero is a fault.
* The backing array `m_array` is a `List T`; an access outside `[0, length)`
  is a fault (undefined behaviour in the source).
* The mutex makes every member function one atomic step on the state.  The
  only place where a call gives the mutex up is a condition wait: the
  environment's answer to a wait is a `Wake`, carrying the wait's return value
  and the queue as found when the wait returns.  `cond::broadcast` changes no
  field of the queue and is left out.
-/

namespace TinyWebServer

/-- Result of a call: it returns a value, it is still waiting when the supplied
wake-ups are used up, or it performs an out-of-range access. -/
inductive Res (α : Type) where
  | ret (a : α)
  | blocked
  | fault
  deriving DecidableEq, Repr

/-- Fields of `block_queue<T>` (the mutex and the condition variable carry no data). -/
structure block_queue (T : Type) where
  m_array : List T
  m_size : Int
  m_max_size : Int
  m_front : Int
  m_back : Int
  deriving DecidableEq, Repr

/-- What a condition wait hands back: `ok` is `cond::wait` / `cond::timewait`
returning true (`ret == 0`), `state` the queue once the mutex is held again. -/
structure Wake (T : Type) where
  ok : Bool
  state : block_queue T
  deriving DecidableEq, Repr

/-- The `struct timeval` read by `gettimeofday`. -/
structure timeval where
  tv_sec : Int
  tv_usec : Int
  deriving DecidableEq, Repr

/-- The `struct timespec` handed to `pthread_cond_timedwait`. -/
structure timespec where
  tv_sec : Int
  tv_nsec : Int
  deriving DecidableEq, Repr

/-- Instant denoted by a `timeval`, in nanoseconds. -/
def timeval.nanos (now : timeval) : Int :=
  (now.tv_sec * 1000000 + now.tv_usec) * 1000

/-- Instant denoted by a `timespec`, in nanoseconds. -/
def timespec.nanos (t : timespec) : Int :=
  t.tv_sec * 1000000000 + t.tv_nsec

/-- Read of `a[i]`; `none` when `i` is out of range. -/
def slot_read {T : Type} (a : List T) (i : Int) : Option T :=
  if 0 ≤ i then a[i.toNat]? else none

/-- Write `a[i] = v`; `none` when `i` is out of range. -/
def slot_write {T : Type} (a : List T) (i : Int) (v : T) : Option (List T) :=
  if 0 ≤ i ∧ i < a.length then some (a.set i.toNat v) else none

namespace block_queue

variable {T : Type}

/-- Constructor `block_queue(int max_size)`: `none` is `exit(-1)`.  The slots of
`new T[max_size]` hold default-constructed values. -/
def construct [Inhabited T] (max_size : Int) : Option (block_queue T) :=
  if max_size ≤ 0 then none
  else some
    { m_max_size := max_size
      m_array := List.replicate max_size.toNat default
      m_size := 0
      m_front := -1
      m_back := -1 }

/-- Member `clear()`. -/
def clear (q : block_queue T) : block_queue T :=
  { q with m_size := 0, m_front := -1, m_back := -1 }

/-- Member `full()`. -/
def full (q : block_queue T) : Bool :=
  if q.m_size ≥ q.m_max_size then true else false

/-- Member `empty()`. -/
def empty (q : block_queue T) : Bool :=
  if 0 = q.m_size then true else false

/-- Member `size()`. -/
def size (q : block_queue T) : Int := q.m_size

/-- Member `max_size()`. -/
def max_size (q : block_queue T) : Int := q.m_max_size

/-- Member `front(T &value)`: `ret none` is `return false` (value untouched),
`ret (some v)` is `return true` with `value = v`. -/
def front (q : block_queue T) : Res (Option T) :=
  if 0 = q.m_size then .ret none
  else
    match slot_read q.m_array q.m_front with
    | none => .fault
    | some value => .ret (some value)

/-- Member `back(T &value)`, same conventions as `front`. -/
def back (q : block_queue T) : Res (Option T) :=
  if 0 = q.m_size then .ret none
  else
    match slot_read q.m_array q.m_back with
    | none => .fault
    | some value => .ret (some value)

/-- Member `push(const T &item)`: the returned pair is the boolean result and
the queue afterwards. -/
def push (q : block_queue T) (item : T) : Res (Bool × block_queue T) :=
  if q.m_size ≥ q.m_max_size then .ret (false, q)
  else if q.m_max_size = 0 then .fault
  else
    let m_back := (q.m_back + 1).tmod q.m_max_size
    match slot_write q.m_array m_back item with
    | none => .fault
    | some m_array =>
      .ret (true, { q with m_back := m_back, m_array := m_array, m_size := q.m_size + 1 })

/-- Member `pop(T &item)`.  `waits` are the answers of the successive
`m_cond.wait` calls; `ret (none, q)` is `return false`, `ret (some item, q)` is
`return true`. -/
def pop (q : block_queue T) (waits : List (Wake T)) : Res (Option T × block_queue T) :=
  if q.m_size ≤ 0 then
    match waits with
    | [] => .blocked
    | w :: rest => if !w.ok then .ret (none, w.state) else pop w.state rest
  else if q.m_max_size = 0 then .fault
  else
    let m_front := (q.m_front + 1).tmod q.m_max_size
    match slot_read q.m_array m_front with
    | none => .fault
    | some item => .ret (some item, { q with m_front := m_front, m_size := q.m_size - 1 })

/-- The absolute deadline `t` that `pop(T &item, int ms_timeout)` computes from
the clock reading `now`. -/
def pop_deadline (now : timeval) (ms_timeout : Int) : timespec :=
  { tv_sec := now.tv_sec + ms_timeout.tdiv 1000
    tv_nsec := (ms_timeout.tmod 1000) * 1000 }

/-- Member `pop(T &item, int ms_timeout)`.  `now` is what `gettimeofday` read,
`timewait` the answer of `m_cond.timewait` for a given deadline. -/
def pop_timed (q : block_queue T) (ms_timeout : Int) (now : timeval)
    (timewait : timespec → Wake T) : Res (Option T × block_queue T) :=
  let waited : Bool × block_queue T :=
    if q.m_size ≤ 0 then
      let w := timewait (pop_deadline now ms_timeout)
      (w.ok, w.state)
    else (true, q)
  if !waited.1 then .ret (none, waited.2)
  else
    let q := waited.2
    if q.m_size ≤ 0 then .ret (none, q)
    else if q.m_max_size = 0 then .fault
    else
      let m_front := (q.m_front + 1).tmod q.m_max_size
      match slot_read q.m_array m_front with
      | none => .fault
      | some item => .ret (some item, { q with m_front := m_front, m_size := q.m_size - 1 })

end block_queue

/-! ## Sequential runs and the abstract bounded FIFO -/

/-- A call issued on the queue by a single caller. -/
inductive Op (T : Type) where
  | push (x : T)
  | pop
  deriving DecidableEq, Repr

/-- What the caller observes: the boolean of a push, or the result of a pop
(`none` for `return false`). -/
inductive Out (T : Type) where
  | pushed (b : Bool)
  | popped (x : Option T)
  deriving DecidableEq, Repr

variable {T : Type}

/-- One call on the queue; a pop is issued with no wake-up pending, so a pop
that has to wait is `blocked`. -/
def queue_step (q : block_queue T) : Op T → Res (Out T × block_queue T)
  | .push x =>
    match q.push x with
    | .ret (b, q') => .ret (.pushed b, q')
    | .blocked => .blocked
    | .fault => .fault
  | .pop =>
    match q.pop [] with
    | .ret (x, q') => .ret (.popped x, q')
    | .blocked => .blocked
    | .fault => .fault

/-- A sequence of calls executed one at a time, with the observations in order. -/
def run_queue (q : block_queue T) : List (Op T) → Res (List (Out T) × block_queue T)
  | [] => .ret ([], q)
  | op :: ops =>
    match queue_step q op with
    | .ret (o, q') =>
      match run_queue q' ops with
      | .ret (os, q'') => .ret (o :: os, q'')
      | .blocked => .blocked
      | .fault => .fault
    | .blocked => .blocked
    | .fault => .fault

/-- The abstract FIFO list bounded by `N`, in the words of the specification: a
push is rejected when `N` items are held and appends otherwise, a pop removes
the oldest item; `none` is a pop on the empty list (it would wait). -/
def fifo_step (N : Int) (l : List T) : Op T → Option (Out T × List T)
  | .push x => if (l.length : Int) ≥ N then some (.pushed false, l) else some (.pushed true, l ++ [x])
  | .pop =>
    match l with
    | [] => none
    | x :: rest => some (.popped (some x), rest)

/-- A sequence of calls on the abstract FIFO list. -/
def run_fifo (N : Int) (l : List T) : List (Op T) → Option (List (Out T) × List T)
  | [] => some ([], l)
  | op :: ops =>
    match fifo_step N l op with
    | none => none
    | some (o, l') =>
      match run_fifo N l' ops with
      | none => none
      | some (os, l'') => some (o :: os, l'')

/-- The slots `buffer[(front+1) mod N], ..., buffer[(front+size) mod N]`, oldest first. -/
def live_slots (q : block_queue T) : List (Option T) :=
  (List.range q.m_size.toNat).map
    (fun (i : Nat) => slot_read q.m_array ((q.m_front + 1 + (i : Int)) % q.m_max_size))

/-- Representation invariant tying a queue of capacity `N` to the list `l` of
items pushed successfully and not yet popped, oldest first. -/
structure Inv (N : Int) (q : block_queue T) (l : List T) : Prop where
  pos : 0 < N
  cap : q.m_max_size = N
  len : (q.m_array.length : Int) = N
  size_eq : q.m_size = (l.length : Int)
  size_le : (l.length : Int) ≤ N
  front_lb : -1 ≤ q.m_front
  front_ub : q.m_front < N
  back_lb : -1 ≤ q.m_back
  back_ub : q.m_back < N
  ring : (q.m_front + q.m_size) % N = q.m_back % N
  slots : ∀ i : Nat, i < l.length →
    slot_read q.m_array ((q.m_front + 1 + (i : Int)) % N) = l[i]?

/-- Items whose push returned true, in push order, read off a run's calls and
observations. -/
def pushed_ok : List (Op T) → List (Out T) → List T
  | .push x :: ops, .pushed true :: outs => x :: pushed_ok ops outs
  | _ :: ops, _ :: outs => pushed_ok ops outs
  | _, _ => []

/-- Items returned by the pops of a run, in pop order. -/
def popped_ok : List (Out T) → List T
  | .popped (some x) :: outs => x :: popped_ok outs
  | _ :: outs => popped_ok outs
  | [] => []

/-- States of a queue of capacity `N` reachable from construction by `push`,
both `pop`s and `clear`, where every wake-up of a wait finds the queue in a
state other callers reached by the same operations.  (`front`, `back`, `size`,
`empty`, `full` and `max_size` write no field.) -/
inductive Reachable [Inhabited T] (N : Int) : block_queue T → Prop where
  | construct (q : block_queue T) : block_queue.construct N = some q → Reachable N q
  | push (q q' : block_queue T) (item : T) (b : Bool) :
      Reachable N q → q.push item = .ret (b, q') → Reachable N q'
  | pop (q q' : block_queue T) (waits : List (Wake T)) (r : Option T) :
      Reachable N q → (∀ w ∈ waits, Reachable N w.state) →
      q.pop waits = .ret (r, q') → Reachable N q'
  | pop_timed (q q' : block_queue T) (ms_timeout : Int) (now : timeval)
      (timewait : timespec → Wake T) (r : Option T) :
      Reachable N q → Reachable N (timewait (block_queue.pop_deadline now ms_timeout)).state →
      q.pop_timed ms_timeout now timewait = .ret (r, q') → Reachable N q'
  | clear (q : block_queue T) : Reachable N q → Reachable N q.clear

/-- What the sentinel `-1` of the two indices records: `front` is `-1` only
while nothing was popped since construction or `clear` (so `back` is
`size - 1`), and `back` is `-1` only while nothing was pushed either. -/
structure Sentinel (q : block_queue T) : Prop where
  front_fresh : q.m_front = -1 → q.m_back = q.m_size - 1
  back_fresh : q.m_back = -1 → q.m_front = -1 ∧ q.m_size = 0

/-- A call of one of the members `push`, `pop`, `size`, `empty`, `full`. -/
inductive Call (T : Type) where
  | push (item : T)
  | pop
  | size
  | empty
  | full
  deriving DecidableEq, Repr

/-- The value a `Call` returns to its caller (for `pop`, `none` is `return false`). -/
inductive Reply (T : Type) where
  | push (b : Bool)
  | pop (item : Option T)
  | size (n : Int)
  | empty (b : Bool)
  | full (b : Bool)
  deriving DecidableEq, Repr

/-- One call on the queue by a single caller (a pop that has to wait is `blocked`). -/
def call_step (q : block_queue T) : Call T → Res (Reply T × block_queue T)
  | .push item =>
    match q.push item with
    | .ret (b, q') => .ret (.push b, q')
    | .blocked => .blocked
    | .fault => .fault
  | .pop =>
    match q.pop [] with
    | .ret (item, q') => .ret (.pop item, q')
    | .blocked => .blocked
    | .fault => .fault
  | .size => .ret (.size q.size, q)
  | .empty => .ret (.empty q.empty, q)
  | .full => .ret (.full q.full, q)

/-- A sequence of calls executed one at a time, with the replies in order. -/
def run_calls (q : block_queue T) : List (Call T) → Res (List (Reply T) × block_queue T)
  | [] => .ret ([], q)
  | c :: cs =>
    match call_step q c with
    | .ret (r, q') =>
      match run_calls q' cs with
      | .ret (rs, q'') => .ret (r :: rs, q'')
      | .blocked => .blocked
      | .fault => .fault
    | .blocked => .blocked
    | .fault => .fault

/-- The replies of a run, without the final state. -/
def replies (r : Res (List (Reply T) × block_queue T)) : Res (List (Reply T)) :=
  match r with
  | .ret (rs, _) => .ret rs
  | .blocked => .blocked
  | .fault => .fault

/-! ## The connection pool -/

/-- A `MYSQL *`, as an address. -/
abbrev MYSQL_ptr := Nat

/-- The null pointer. -/
def NULL : MYSQL_ptr := 0

/-- Fields of `connection_pool` used by `sql_connection_pool.cpp` (the class
declaration is in a header that is not part of the sources; the connection
parameters play no part in the pool's bookkeeping).  `reserve` is the value of
the semaphore. -/
structure connection_pool where
  m_MaxConn : Int
  m_CurConn : Int
  m_FreeConn : Int
  connList : List MYSQL_ptr
  reserve : Nat
  deriving DecidableEq, Repr

namespace connection_pool

/-- Constructor `connection_pool()` of the static instance: zero-initialised
storage, `sem()` starts at 0. -/
def construct : connection_pool :=
  { m_MaxConn := 0, m_CurConn := 0, m_FreeConn := 0, connList := [], reserve := 0 }

/-- Body of the `for` loop of `init`, iteration `i`: `mysql_init i` and
`mysql_real_connect i con` are the results of the two library calls (`NULL` on
failure); `none` is `exit(1)`. -/
def init_iteration (mysql_init : Nat → MYSQL_ptr)
    (mysql_real_connect : Nat → MYSQL_ptr → MYSQL_ptr) (p : connection_pool) (i : Nat) :
    Option connection_pool :=
  let con := mysql_init i
  if con = NULL then none
  else
    let con := mysql_real_connect i con
    if con = NULL then none
    else some { p with connList := p.connList ++ [con], m_FreeConn := p.m_FreeConn + 1 }

/-- Member `init`, for a requested count `MaxConn`; `none` is `exit(1)`. -/
def init (p : connection_pool) (MaxConn : Int) (mysql_init : Nat → MYSQL_ptr)
    (mysql_real_connect : Nat → MYSQL_ptr → MYSQL_ptr) : Option connection_pool :=
  ((List.range MaxConn.toNat).foldlM (init_iteration mysql_init mysql_real_connect) p).map
    (fun p => { p with reserve := p.m_FreeConn.toNat, m_MaxConn := p.m_FreeConn })

/-- Member `GetConnection()` as one atomic step: `blocked` is `reserve.wait()`
on a semaphore at 0, `fault` is `front()` of an empty list. -/
def GetConnection (p : connection_pool) : Res (MYSQL_ptr × connection_pool) :=
  if 0 = p.connList.length then .ret (NULL, p)
  else if p.reserve = 0 then .blocked
  else
    match p.connList with
    | [] => .fault
    | con :: rest =>
      .ret (con, { p with reserve := p.reserve - 1, connList := rest,
                          m_FreeConn := p.m_FreeConn - 1, m_CurConn := p.m_CurConn + 1 })

/-- Member `ReleaseConnection(MYSQL *con)` as one atomic step. -/
def ReleaseConnection (p : connection_pool) (con : MYSQL_ptr) : Bool × connection_pool :=
  if NULL = con then (false, p)
  else
    (true, { p with connList := p.connList ++ [con], m_FreeConn := p.m_FreeConn + 1,
                    m_CurConn := p.m_CurConn - 1, reserve := p.reserve + 1 })

end connection_pool

/-- A step of a client of the pool. -/
inductive PoolOp where
  | acquire
  | release (con : MYSQL_ptr)
  deriving DecidableEq, Repr

/-- The pool together with the handles handed out by `GetConnection` and not
yet given back. -/
structure PoolTrace where
  pool : connection_pool
  borrowed : List MYSQL_ptr
  deriving DecidableEq, Repr

/-- One atomic client step.  An acquire that returns `NULL` hands out no handle;
one that is blocked leaves everything as it is.  `none` marks a step outside
the discipline: a release of a handle that is not currently borrowed. -/
def pool_step (s : PoolTrace) : PoolOp → Option PoolTrace
  | .acquire =>
    match s.pool.GetConnection with
    | .ret (con, p) =>
      some { pool := p, borrowed := if con = NULL then s.borrowed else con :: s.borrowed }
    | .blocked => some s
    | .fault => none
  | .release con =>
    if con ∈ s.borrowed then
      some { pool := (s.pool.ReleaseConnection con).2, borrowed := s.borrowed.erase con }
    else none

/-- A sequence of atomic client steps. -/
def pool_run (s : PoolTrace) : List PoolOp → Option PoolTrace
  | [] => some s
  | op :: ops =>
    match pool_step s op with
    | none => none
    | some s' => pool_run s' ops

/-- Bookkeeping invariant of a pool of capacity `c` with its borrowed handles. -/
structure PoolInv (c : Int) (s : PoolTrace) : Prop where
  cap : s.pool.m_MaxConn = c
  total : (s.borrowed.length : Int) + s.pool.connList.length = c
  sem : s.pool.reserve = s.pool.connList.length
  free : s.pool.m_FreeConn = s.pool.connList.length
  cur : s.pool.m_CurConn = s.borrowed.length
  free_nonnull : NULL ∉ s.pool.connList
  borrowed_nonnull : NULL ∉ s.borrowed

/-- Member `DestroyPool()`: the second component lists the handles passed to
`mysql_close`, in call order. -/
def connection_pool.DestroyPool (p : connection_pool) : connection_pool × List MYSQL_ptr :=
  if p.connList.length > 0 then
    let closed := p.connList.foldl (fun (closed : List MYSQL_ptr) con => closed ++ [con]) []
    ({ p with m_CurConn := 0, m_FreeConn := 0, connList := [] }, closed)
  else (p, [])

/-- A completed call of a member of the pool, by any client and with any argument. -/
inductive PoolCall where
  | GetConnection
  | ReleaseConnection (con : MYSQL_ptr)
  | DestroyPool
  deriving DecidableEq, Repr

/-- The pool after a completed call; `none` when the call does not complete
(`GetConnection` blocked or faulting). -/
def pool_call (p : connection_pool) : PoolCall → Option connection_pool
  | .GetConnection =>
    match p.GetConnection with
    | .ret (_, p') => some p'
    | .blocked => none
    | .fault => none
  | .ReleaseConnection con => some (p.ReleaseConnection con).2
  | .DestroyPool => some p.DestroyPool.1

/-- The pool after a sequence of completed calls. -/
def pool_calls (p : connection_pool) : List PoolCall → Option connection_pool
  | [] => some p
  | c :: cs =>
    match pool_call p c with
    | none => none
    | some p' => pool_calls p' cs

/-- The member `conRAII` of a `connectionRAII` guard; its member `poolRAII`
points to the pool, which is passed along explicitly. -/
structure connectionRAII where
  conRAII : MYSQL_ptr
  deriving DecidableEq, Repr

/-- Constructor `connectionRAII(MYSQL **SQL, connection_pool *connPool)`: the
value stored in `*SQL`, the guard, and the pool afterwards. -/
def connectionRAII.construct (connPool : connection_pool) :
    Res (MYSQL_ptr × connectionRAII × connection_pool) :=
  match connPool.GetConnection with
  | .ret (SQL, p) => .ret (SQL, { conRAII := SQL }, p)
  | .blocked => .blocked
  | .fault => .fault

/-- Destructor `~connectionRAII()`: the arguments of the `ReleaseConnection`
calls it makes, and the pool afterwards (the boolean result is discarded). -/
def connectionRAII.destruct (g : connectionRAII) (poolRAII : connection_pool) :
    List MYSQL_ptr × connection_pool :=
  ([g.conRAII], (poolRAII.ReleaseConnection g.conRAII).2)

/-- The handles that `init` obtains when every open succeeds, in open order. -/
def opened (mysql_init : Nat → MYSQL_ptr) (mysql_real_connect : Nat → MYSQL_ptr → MYSQL_ptr)
    (n : Nat) : List MYSQL_ptr :=
  (List.range n).map (fun i => mysql_real_connect i (mysql_init i))

/-- Counter bookkeeping of the pool: `m_FreeConn` is the length of the free
list, the two counters add up to `m_MaxConn`, and the semaphore stands at the
length of the free list. -/
structure PoolCounts (p : connection_pool) : Prop where
  free : p.m_FreeConn = p.connList.length
  total : p.m_FreeConn + p.m_CurConn = p.m_MaxConn
  sem : p.reserve = p.connList.length

/-- What survives `DestroyPool` as well: the semaphore is at least the length
of the free list, which holds no null pointer. -/
structure PoolBound (p : connection_pool) : Prop where
  sem_ge : p.connList.length ≤ p.reserve
  nonnull : NULL ∉ p.connList

/-! ## Ring-buffer lemmas -/

theorem slot_read_of_nonneg (a : List T) (i : Int) (h : 0 ≤ i) :
    slot_read a i = a[i.toNat]? := by
  simp [slot_read, h]

theorem slot_write_of_lt (a : List T) (i : Int) (v : T) (h0 : 0 ≤ i) (h1 : i < a.length) :
    slot_write a i v = some (a.set i.toNat v) := by
  simp [slot_write, h0, h1]

theorem slot_read_set (a : List T) (i j : Int) (v : T) (hi0 : 0 ≤ i) (hi1 : i < a.length)
    (hj0 : 0 ≤ j) :
    slot_read (a.set i.toNat v) j = if i = j then some v else slot_read a j := by
  rw [slot_read_of_nonneg _ _ hj0, slot_read_of_nonneg _ _ hj0, List.getElem?_set]
  have hlt : i.toNat < a.length := by omega
  by_cases hij : i = j
  · subst hij
    simp [hlt]
  · have hne : i.toNat ≠ j.toNat := by omega
    simp [hij, hne]

/-- Advancing an index in `[-1, N)` with the truncating remainder lands in `[0, N)`
and agrees with the mathematical remainder. -/
theorem advance_eq (b N : Int) (hN : 0 < N) (hb : -1 ≤ b) :
    (b + 1).tmod N = (b + 1) % N ∧ 0 ≤ (b + 1) % N ∧ (b + 1) % N < N := by
  refine ⟨Int.tmod_eq_emod (by omega) (by omega), Int.emod_nonneg _ (by omega),
    Int.emod_lt_of_pos _ hN⟩

/-- Two offsets less than `N` apart address different slots. -/
theorem ring_offsets_ne (a N : Int) (i j : Int) (hi : 0 ≤ i) (hij : i < j) (hj : j < N) :
    (a + i) % N ≠ (a + j) % N := by
  intro h
  have h2 : (a + j - (a + i)) % N = 0 := Int.emod_eq_emod_iff_emod_sub_eq_zero.mp h.symm
  have h3 : a + j - (a + i) = j - i := by ring
  rw [h3, Int.emod_eq_of_lt (by omega) (by omega)] at h2
  omega

/-! ## The invariant is established and preserved -/

theorem construct_eq [Inhabited T] (N : Int) (hN : 0 < N) :
    (block_queue.construct N : Option (block_queue T)) =
      some ⟨List.replicate N.toNat default, 0, N, -1, -1⟩ := by
  have h : ¬ N ≤ 0 := by omega
  simp [block_queue.construct, h]

theorem inv_construct [Inhabited T] (N : Int) (hN : 0 < N) :
    Inv N (⟨List.replicate N.toNat default, 0, N, -1, -1⟩ : block_queue T) [] where
  pos := hN
  cap := rfl
  len := by simp; omega
  size_eq := by simp
  size_le := by simp; omega
  front_lb := by simp
  front_ub := by simp; omega
  back_lb := by simp
  back_ub := by simp; omega
  ring := by simp
  slots := by intro i hi; simp at hi

theorem inv_push {N : Int} {q : block_queue T} {l : List T} (h : Inv N q l)
    (hlt : (l.length : Int) < N) (x : T) :
    ∃ q', q.push x = .ret (true, q') ∧ Inv N q' (l ++ [x]) := by
  obtain ⟨hN, hcap, hlen, hsz, hle, hf0, hf1, hb0, hb1, hring, hslots⟩ := h
  obtain ⟨hadv, hadv0, hadv1⟩ := advance_eq q.m_back N hN hb0
  have hback : (q.m_back + 1) % N = (q.m_front + 1 + (l.length : Int)) % N := by
    have e1 : (q.m_back + 1) % N = (q.m_back % N + 1) % N := (Int.emod_add_emod _ _ _).symm
    have e2 : (q.m_front + q.m_size + 1) % N = ((q.m_front + q.m_size) % N + 1) % N :=
      (Int.emod_add_emod _ _ _).symm
    rw [e1, ← hring, ← e2, hsz]
    congr 1
    ring
  have hw := slot_write_of_lt q.m_array ((q.m_back + 1) % N) x hadv0 (by omega)
  refine ⟨{ q with m_back := (q.m_back + 1) % N,
                   m_array := q.m_array.set ((q.m_back + 1) % N).toNat x,
                   m_size := q.m_size + 1 }, ?_, ?_⟩
  · have h1 : ¬ q.m_size ≥ q.m_max_size := by omega
    have h2 : ¬ q.m_max_size = 0 := by omega
    have h3 : ¬ q.m_size ≥ N := by omega
    have h4 : ¬ N = 0 := by omega
    simp only [block_queue.push, h1, h2, h3, h4, if_false, hcap, hadv, hw]
  · refine ⟨hN, hcap, ?_, ?_, ?_, hf0, hf1, by simp; omega, by simpa using hadv1, ?_, ?_⟩
    · simpa using hlen
    · simp [hsz]
    · simp; omega
    · show (q.m_front + (q.m_size + 1)) % N = (q.m_back + 1) % N % N
      rw [Int.emod_emod_of_dvd _ (dvd_refl N), hback, hsz]
      congr 1
      ring
    · intro i hi
      show slot_read (q.m_array.set ((q.m_back + 1) % N).toNat x)
        ((q.m_front + 1 + (i : Int)) % N) = (l ++ [x])[i]?
      have hi0 : 0 ≤ (q.m_front + 1 + (i : Int)) % N := Int.emod_nonneg _ (by omega)
      rw [slot_read_set _ _ _ _ hadv0 (by omega) hi0]
      simp only [List.length_append, List.length_singleton] at hi
      by_cases hil : i < l.length
      · have hne : (q.m_back + 1) % N ≠ (q.m_front + 1 + (i : Int)) % N := by
          rw [hback]
          exact (ring_offsets_ne (q.m_front + 1) N i l.length (by omega) (by omega) hlt).symm
        rw [if_neg hne, hslots i hil, List.getElem?_append_left hil]
      · have hil2 : i = l.length := by omega
        subst hil2
        rw [if_pos hback]
        simp

theorem push_full (q : block_queue T) (x : T) (h : q.m_size ≥ q.m_max_size) :
    q.push x = .ret (false, q) := by
  simp [block_queue.push, h]

theorem pop_of_pos (q : block_queue T) (waits : List (Wake T)) (h : 0 < q.m_size) :
    q.pop waits = q.pop [] := by
  have h1 : ¬ q.m_size ≤ 0 := by omega
  unfold block_queue.pop
  simp only [h1, if_false]

theorem inv_pop {N : Int} {q : block_queue T} {x : T} {l : List T} (h : Inv N q (x :: l))
    (waits : List (Wake T)) :
    ∃ q', q.pop waits = .ret (some x, q') ∧ Inv N q' l := by
  obtain ⟨hN, hcap, hlen, hsz, hle, hf0, hf1, hb0, hb1, hring, hslots⟩ := h
  obtain ⟨hadv, hadv0, hadv1⟩ := advance_eq q.m_front N hN hf0
  simp only [List.length_cons, Nat.cast_add, Nat.cast_one] at hsz hle
  have hrd : slot_read q.m_array ((q.m_front + 1) % N) = some x := by
    have := hslots 0 (by simp)
    simpa using this
  refine ⟨{ q with m_front := (q.m_front + 1) % N, m_size := q.m_size - 1 }, ?_, ?_⟩
  · have h1 : ¬ q.m_size ≤ 0 := by omega
    have h2 : ¬ q.m_max_size = 0 := by omega
    unfold block_queue.pop
    have h4 : ¬ N = 0 := by omega
    simp only [h1, h2, h4, if_false, hcap, hadv, hrd]
  · refine ⟨hN, hcap, hlen, by simp [hsz], by omega, by simp; omega, by simpa using hadv1,
      hb0, hb1, ?_, ?_⟩
    · show ((q.m_front + 1) % N + (q.m_size - 1)) % N = q.m_back % N
      rw [Int.emod_add_emod, ← hring]
      congr 1
      ring
    · intro i hi
      show slot_read q.m_array (((q.m_front + 1) % N + 1 + (i : Int)) % N) = l[i]?
      have e : ((q.m_front + 1) % N + 1 + (i : Int)) % N
          = (q.m_front + 1 + ((i + 1 : Nat) : Int)) % N := by
        rw [add_assoc, Int.emod_add_emod]
        congr 1
        push_cast
        ring
      rw [e, hslots (i + 1) (by simp; omega)]
      simp

/-! ## Simulation of the abstract FIFO list -/

theorem queue_step_simulates {N : Int} {q : block_queue T} {l : List T} (h : Inv N q l)
    (op : Op T) (o : Out T) (l' : List T) (hs : fifo_step N l op = some (o, l')) :
    ∃ q', queue_step q op = .ret (o, q') ∧ Inv N q' l' := by
  cases op with
  | push x =>
    by_cases hfull : (l.length : Int) ≥ N
    · simp only [fifo_step, hfull, if_true, Option.some.injEq, Prod.mk.injEq] at hs
      obtain ⟨rfl, rfl⟩ := hs
      have hq : q.m_size ≥ q.m_max_size := by rw [h.size_eq, h.cap]; exact hfull
      exact ⟨q, by simp [queue_step, push_full q x hq], h⟩
    · simp only [fifo_step, hfull, if_false, Option.some.injEq, Prod.mk.injEq] at hs
      obtain ⟨rfl, rfl⟩ := hs
      obtain ⟨q', hp, hinv⟩ := inv_push h (by omega) x
      exact ⟨q', by simp [queue_step, hp], hinv⟩
  | pop =>
    cases l with
    | nil => simp [fifo_step] at hs
    | cons x rest =>
      simp only [fifo_step, Option.some.injEq, Prod.mk.injEq] at hs
      obtain ⟨rfl, rfl⟩ := hs
      obtain ⟨q', hp, hinv⟩ := inv_pop h []
      exact ⟨q', by simp [queue_step, hp], hinv⟩

theorem run_queue_simulates {N : Int} (ops : List (Op T)) :
    ∀ (q : block_queue T) (l : List T), Inv N q l →
    ∀ (outs : List (Out T)) (l' : List T), run_fifo N l ops = some (outs, l') →
      ∃ q', run_queue q ops = .ret (outs, q') ∧ Inv N q' l' := by
  induction ops with
  | nil =>
    intro q l h outs l' hs
    simp only [run_fifo, Option.some.injEq, Prod.mk.injEq] at hs
    obtain ⟨rfl, rfl⟩ := hs
    exact ⟨q, rfl, h⟩
  | cons op ops ih =>
    intro q l h outs l' hs
    simp only [run_fifo] at hs
    cases hstep : fifo_step N l op with
    | none => simp [hstep] at hs
    | some p =>
      obtain ⟨o, l1⟩ := p
      simp only [hstep] at hs
      cases hrest : run_fifo N l1 ops with
      | none => simp [hrest] at hs
      | some r =>
        obtain ⟨os, l2⟩ := r
        simp only [hrest, Option.some.injEq, Prod.mk.injEq] at hs
        obtain ⟨rfl, rfl⟩ := hs
        obtain ⟨q1, hq1, hinv1⟩ := queue_step_simulates h op o l1 hstep
        obtain ⟨q2, hq2, hinv2⟩ := ih q1 l1 hinv1 os l2 hrest
        exact ⟨q2, by simp [run_queue, hq1, hq2], hinv2⟩

theorem run_queue_blocks {N : Int} (ops : List (Op T)) :
    ∀ (q : block_queue T) (l : List T), Inv N q l → run_fifo N l ops = none →
      run_queue q ops = .blocked := by
  induction ops with
  | nil => intro q l _ hs; simp [run_fifo] at hs
  | cons op ops ih =>
    intro q l h hs
    simp only [run_fifo] at hs
    cases hstep : fifo_step N l op with
    | none =>
      cases op with
      | push x =>
        by_cases hfull : (l.length : Int) ≥ N <;> simp [fifo_step, hfull] at hstep
      | pop =>
        cases l with
        | cons x rest => simp [fifo_step] at hstep
        | nil =>
          have h0 : q.m_size ≤ 0 := by have := h.size_eq; simp at this; omega
          have hb : q.pop [] = .blocked := by
            unfold block_queue.pop
            simp [h0]
          simp [run_queue, queue_step, hb]
    | some p =>
      obtain ⟨o, l1⟩ := p
      simp only [hstep] at hs
      obtain ⟨q1, hq1, hinv1⟩ := queue_step_simulates h op o l1 hstep
      cases hrest : run_fifo N l1 ops with
      | some r => simp [hrest] at hs
      | none => simp [run_queue, hq1, ih q1 l1 hinv1 hrest]

theorem live_slots_of_inv {N : Int} {q : block_queue T} {l : List T} (h : Inv N q l) :
    live_slots q = l.map some := by
  apply List.ext_getElem?
  intro i
  simp only [live_slots, h.size_eq, h.cap, Int.toNat_ofNat, List.getElem?_map]
  by_cases hi : i < l.length
  · rw [List.getElem?_range hi, List.getElem?_eq_getElem hi]
    simp only [Option.map_some']
    rw [h.slots i hi, List.getElem?_eq_getElem hi]
  · rw [List.getElem?_eq_none (by simpa using hi), List.getElem?_eq_none (by simpa using hi)]
    rfl

theorem run_fifo_pushes (N : Int) (xs : List T) :
    ∀ (l : List T), (l.length : Int) + xs.length ≤ N →
      run_fifo N l (xs.map Op.push) = some (xs.map (fun _ => Out.pushed true), l ++ xs) := by
  induction xs with
  | nil => intro l _; simp [run_fifo]
  | cons x xs ih =>
    intro l hl
    simp only [List.length_cons, Nat.cast_add, Nat.cast_one] at hl
    have hnf : ¬ (l.length : Int) ≥ N := by omega
    have := ih (l ++ [x]) (by simp; omega)
    simp [run_fifo, fifo_step, hnf, this]

theorem run_fifo_pops (N : Int) (l : List T) :
    run_fifo N l (List.replicate l.length Op.pop)
      = some (l.map (fun x => Out.popped (some x)), []) := by
  induction l with
  | nil => simp [run_fifo]
  | cons x l ih => simp [run_fifo, fifo_step, List.replicate_succ, ih]

theorem run_fifo_pending (N : Int) (ops : List (Op T)) :
    ∀ (l : List T) (outs : List (Out T)) (l' : List T), run_fifo N l ops = some (outs, l') →
      l ++ pushed_ok ops outs = popped_ok outs ++ l' := by
  induction ops with
  | nil =>
    intro l outs l' h
    simp only [run_fifo, Option.some.injEq, Prod.mk.injEq] at h
    obtain ⟨rfl, rfl⟩ := h
    simp [pushed_ok, popped_ok]
  | cons op ops ih =>
    intro l outs l' h
    simp only [run_fifo] at h
    cases hstep : fifo_step N l op with
    | none => simp [hstep] at h
    | some p =>
      obtain ⟨o, l1⟩ := p
      simp only [hstep] at h
      cases hrest : run_fifo N l1 ops with
      | none => simp [hrest] at h
      | some r =>
        obtain ⟨os, l2⟩ := r
        simp only [hrest, Option.some.injEq, Prod.mk.injEq] at h
        obtain ⟨rfl, rfl⟩ := h
        have hih := ih l1 os l2 hrest
        cases op with
        | push x =>
          by_cases hfull : (l.length : Int) ≥ N
          · simp only [fifo_step, hfull, if_true, Option.some.injEq, Prod.mk.injEq] at hstep
            obtain ⟨rfl, rfl⟩ := hstep
            simpa [pushed_ok, popped_ok] using hih
          · simp only [fifo_step, hfull, if_false, Option.some.injEq, Prod.mk.injEq] at hstep
            obtain ⟨rfl, rfl⟩ := hstep
            simpa [pushed_ok, popped_ok] using hih
        | pop =>
          cases l with
          | nil => simp [fifo_step] at hstep
          | cons x rest =>
            simp only [fifo_step, Option.some.injEq, Prod.mk.injEq] at hstep
            obtain ⟨rfl, rfl⟩ := hstep
            simpa [pushed_ok, popped_ok] using hih

/-! ## Claims about the queue in sequential use -/

/-- C1. On a freshly constructed queue of capacity `N > 0`, pushing `x1..xk`
with `k ≤ N` returns true every time, and the next `k` pops return true and
yield `x1..xk` in that order, after which the queue is empty. -/
theorem fifo_push_then_pop [Inhabited T] (N : Int) (xs : List T) (hN : 0 < N)
    (hk : (xs.length : Int) ≤ N) :
    ∃ q0 q1 q2 : block_queue T,
      block_queue.construct N = some q0 ∧
      run_queue q0 (xs.map Op.push) = .ret (xs.map (fun _ => Out.pushed true), q1) ∧
      run_queue q1 (List.replicate xs.length Op.pop)
        = .ret (xs.map (fun x => Out.popped (some x)), q2) ∧
      q2.m_size = 0 ∧ q2.empty = true := by
  obtain ⟨q1, h1, inv1⟩ := run_queue_simulates (xs.map Op.push) _ [] (inv_construct N hN) _ _
    (run_fifo_pushes N xs [] (by simpa using hk))
  rw [List.nil_append] at inv1
  obtain ⟨q2, h2, inv2⟩ := run_queue_simulates (List.replicate xs.length Op.pop) q1 xs inv1 _ _
    (run_fifo_pops N xs)
  have hsz : q2.m_size = 0 := by simpa using inv2.size_eq
  exact ⟨_, q1, q2, construct_eq N hN, h1, h2, hsz, by simp [block_queue.empty, hsz]⟩

/-- Scenario A for C1: capacity 3, items A, B, C. -/
theorem fifo_push_then_pop_witness :
    ∃ q0 q1 q2 : block_queue String,
      block_queue.construct 3 = some q0 ∧
      run_queue q0 [.push "A", .push "B", .push "C"]
        = .ret ([.pushed true, .pushed true, .pushed true], q1) ∧
      run_queue q1 [.pop, .pop, .pop]
        = .ret ([.popped (some "A"), .popped (some "B"), .popped (some "C")], q2) ∧
      q2.m_size = 0 ∧ q2.empty = true :=
  fifo_push_then_pop 3 ["A", "B", "C"] (by decide) (by decide)

/-- C2. For `N > 0` and any sequence of pushes and pops executed one at a time
on a freshly constructed queue, the queue simulates the abstract FIFO list
bounded by `N`.  Whenever the abstract list serves the whole sequence (no pop
meets an empty list), the queue returns from every call with the same
observations; in the state reached the slots `buffer[(front+1) mod N] ..
buffer[(front+size) mod N]` hold exactly the abstract list, which is the
successfully pushed items minus the popped ones in push order (a rejected item
is never delivered), `(front+size) mod N = back mod N` when `size > 0`, and if
the list is not empty a further pop returns true with its oldest item and
leaves the rest, whatever wake-ups are pending.  Where a pop meets the empty
abstract list the queue blocks, and conversely every run the queue returns
from is one the abstract list serves with the same observations. -/
theorem queue_refines_bounded_fifo [Inhabited T] (N : Int) (hN : 0 < N) (ops : List (Op T)) :
    ∃ q0 : block_queue T,
      block_queue.construct N = some q0 ∧
      (∀ (outs : List (Out T)) (l : List T), run_fifo N [] ops = some (outs, l) →
        ∃ q : block_queue T,
          run_queue q0 ops = .ret (outs, q) ∧
          live_slots q = l.map some ∧
          q.m_size = (l.length : Int) ∧ q.m_size ≤ N ∧ q.m_max_size = N ∧
          pushed_ok ops outs = popped_ok outs ++ l ∧
          (0 < q.m_size → (q.m_front + q.m_size) % N = q.m_back % N) ∧
          (∀ (x : T) (rest : List T), l = x :: rest →
            ∃ q' : block_queue T, (∀ waits : List (Wake T), q.pop waits = .ret (some x, q')) ∧
              live_slots q' = rest.map some)) ∧
      (run_fifo N ([] : List T) ops = none → run_queue q0 ops = .blocked) ∧
      (∀ (outs : List (Out T)) (q : block_queue T), run_queue q0 ops = .ret (outs, q) →
        ∃ l : List T,
          run_fifo N [] ops = some (outs, l) ∧
          live_slots q = l.map some ∧
          q.m_size = (l.length : Int) ∧ q.m_size ≤ N ∧ q.m_max_size = N ∧
          pushed_ok ops outs = popped_ok outs ++ l ∧
          (0 < q.m_size → (q.m_front + q.m_size) % N = q.m_back % N)) := by
  refine ⟨_, construct_eq N hN, ?_, run_queue_blocks ops _ [] (inv_construct N hN), ?_⟩
  · intro outs l hf
    obtain ⟨q, hq, inv⟩ := run_queue_simulates ops _ [] (inv_construct N hN) outs l hf
    refine ⟨q, hq, live_slots_of_inv inv, inv.size_eq, ?_, inv.cap, ?_, fun _ => inv.ring, ?_⟩
    · rw [inv.size_eq]; exact inv.size_le
    · simpa using run_fifo_pending N ops [] outs l hf
    · intro x rest hl
      subst hl
      obtain ⟨q', hp, inv'⟩ := inv_pop inv []
      have hpos : 0 < q.m_size := by
        have := inv.size_eq
        simp only [List.length_cons, Nat.cast_add, Nat.cast_one] at this
        omega
      exact ⟨q', fun waits => by rw [pop_of_pos q waits hpos, hp], live_slots_of_inv inv'⟩
  · intro outs q hq
    cases hf : run_fifo N ([] : List T) ops with
    | none =>
      rw [run_queue_blocks ops _ [] (inv_construct N hN) hf] at hq
      cases hq
    | some r =>
      obtain ⟨outs1, l⟩ := r
      obtain ⟨q1, hq1, inv⟩ := run_queue_simulates ops _ [] (inv_construct N hN) outs1 l hf
      rw [hq1] at hq
      simp only [Res.ret.injEq, Prod.mk.injEq] at hq
      obtain ⟨rfl, rfl⟩ := hq
      refine ⟨l, rfl, live_slots_of_inv inv, inv.size_eq, ?_, inv.cap, ?_, fun _ => inv.ring⟩
      · rw [inv.size_eq]; exact inv.size_le
      · simpa using run_fifo_pending N ops [] outs1 l hf

/-- A run of capacity 2 for C2 with a rejected push and a wrap-around of both
indices: push A, B, C (rejected), pop, push D, pop, pop, push E, push F.  The
abstract list serves it and ends as E, F, so the queue returns the same
observations, holds E, F in its live slots, and a further pop delivers E. -/
theorem queue_refines_bounded_fifo_witness :
    run_fifo 2 ([] : List String)
        [.push "A", .push "B", .push "C", .pop, .push "D", .pop, .pop, .push "E", .push "F"]
      = some ([.pushed true, .pushed true, .pushed false, .popped (some "A"), .pushed true,
          .popped (some "B"), .popped (some "D"), .pushed true, .pushed true], ["E", "F"]) ∧
    ∃ q0 q : block_queue String,
      block_queue.construct 2 = some q0 ∧
      run_queue q0
          [.push "A", .push "B", .push "C", .pop, .push "D", .pop, .pop, .push "E", .push "F"]
        = .ret ([.pushed true, .pushed true, .pushed false, .popped (some "A"), .pushed true,
            .popped (some "B"), .popped (some "D"), .pushed true, .pushed true], q) ∧
      live_slots q = ["E", "F"].map some ∧
      q.m_size = ((["E", "F"] : List String).length : Int) ∧
      (∃ q' : block_queue String,
        (∀ waits : List (Wake String), q.pop waits = .ret (some "E", q')) ∧
        live_slots q' = ["F"].map some) :=
  match queue_refines_bounded_fifo 2 (by decide)
      [.push "A", .push "B", .push "C", .pop, .push "D", .pop, .pop, .push "E", .push "F"] with
  | ⟨q0, h0, hfwd, _, _⟩ =>
    have hf : run_fifo 2 ([] : List String)
        [.push "A", .push "B", .push "C", .pop, .push "D", .pop, .pop, .push "E", .push "F"]
        = some ([.pushed true, .pushed true, .pushed false, .popped (some "A"), .pushed true,
            .popped (some "B"), .popped (some "D"), .pushed true, .pushed true], ["E", "F"]) := by
      decide
    match hfwd _ _ hf with
    | ⟨q, hrun, hlive, hsize, _, _, _, _, hpop⟩ =>
      ⟨hf, q0, q, h0, hrun, hlive, hsize, hpop "E" ["F"] rfl⟩

/-- C3. A push on a full queue (`size == N`) returns false and leaves `size`,
`front`, `back` and every buffer slot as they were. -/
theorem push_on_full_rejected (q : block_queue T) (item : T) (h : q.m_size = q.m_max_size) :
    q.push item = .ret (false, q) :=
  push_full q item (by omega)

/-- Scenario A for C3: the queue of capacity 3 holding A, B, C rejects D. -/
theorem push_on_full_rejected_witness :
    run_queue (⟨[default, default, default], 0, 3, -1, -1⟩ : block_queue String)
        [.push "A", .push "B", .push "C"]
      = .ret ([.pushed true, .pushed true, .pushed true], ⟨["A", "B", "C"], 3, 3, -1, 2⟩) ∧
    (⟨["A", "B", "C"], 3, 3, -1, 2⟩ : block_queue String).push "D"
      = .ret (false, ⟨["A", "B", "C"], 3, 3, -1, 2⟩) :=
  ⟨by decide, push_on_full_rejected _ "D" (by decide)⟩

/-! ## Waiting pops and reachable states -/

theorem pop_timed_of_pos (q : block_queue T) (ms_timeout : Int) (now : timeval)
    (timewait : timespec → Wake T) (h : 0 < q.m_size) :
    q.pop_timed ms_timeout now timewait = q.pop [] := by
  have h1 : ¬ q.m_size ≤ 0 := by omega
  unfold block_queue.pop block_queue.pop_timed
  simp only [h1, if_false, Bool.not_true, Bool.false_eq_true]

theorem pop_timed_of_empty (q : block_queue T) (ms_timeout : Int) (now : timeval)
    (timewait : timespec → Wake T) (h : q.m_size ≤ 0) :
    q.pop_timed ms_timeout now timewait =
      if (timewait (block_queue.pop_deadline now ms_timeout)).ok = false then
        .ret (none, (timewait (block_queue.pop_deadline now ms_timeout)).state)
      else if (timewait (block_queue.pop_deadline now ms_timeout)).state.m_size ≤ 0 then
        .ret (none, (timewait (block_queue.pop_deadline now ms_timeout)).state)
      else (timewait (block_queue.pop_deadline now ms_timeout)).state.pop [] := by
  unfold block_queue.pop_timed
  simp only [h, if_true]
  cases hok : (timewait (block_queue.pop_deadline now ms_timeout)).ok with
  | false => simp
  | true =>
    by_cases hs : (timewait (block_queue.pop_deadline now ms_timeout)).state.m_size ≤ 0
    · simp [hs]
    · unfold block_queue.pop
      simp [hs]

theorem inv_clear {N : Int} {q : block_queue T} {l : List T} (h : Inv N q l) :
    Inv N q.clear [] where
  pos := h.pos
  cap := h.cap
  len := h.len
  size_eq := by simp [block_queue.clear]
  size_le := by have := h.pos; simp; omega
  front_lb := by simp [block_queue.clear]
  front_ub := by have := h.pos; simp [block_queue.clear]; omega
  back_lb := by simp [block_queue.clear]
  back_ub := by have := h.pos; simp [block_queue.clear]; omega
  ring := by simp [block_queue.clear]
  slots := by intro i hi; simp at hi

theorem push_preserves {N : Int} {q q' : block_queue T} {item : T} {b : Bool}
    (h : ∃ l, Inv N q l) (hp : q.push item = .ret (b, q')) : ∃ l, Inv N q' l := by
  obtain ⟨l, inv⟩ := h
  by_cases hfull : (l.length : Int) < N
  · obtain ⟨q1, h1, inv1⟩ := inv_push inv hfull item
    rw [h1] at hp
    simp only [Res.ret.injEq, Prod.mk.injEq] at hp
    exact ⟨_, hp.2 ▸ inv1⟩
  · have hq : q.m_size ≥ q.m_max_size := by rw [inv.size_eq, inv.cap]; omega
    rw [push_full q item hq] at hp
    simp only [Res.ret.injEq, Prod.mk.injEq] at hp
    exact ⟨l, hp.2 ▸ inv⟩

theorem pop_nowait_preserves {N : Int} {q q' : block_queue T} {r : Option T}
    (h : ∃ l, Inv N q l) (hpos : 0 < q.m_size) (hp : q.pop [] = .ret (r, q')) :
    ∃ l, Inv N q' l := by
  obtain ⟨l, inv⟩ := h
  cases l with
  | nil => have := inv.size_eq; simp at this; omega
  | cons x rest =>
    obtain ⟨q1, h1, inv1⟩ := inv_pop inv []
    rw [h1] at hp
    simp only [Res.ret.injEq, Prod.mk.injEq] at hp
    exact ⟨rest, hp.2 ▸ inv1⟩

theorem pop_preserves {N : Int} (waits : List (Wake T)) :
    ∀ (q q' : block_queue T) (r : Option T), (∃ l, Inv N q l) →
      (∀ w ∈ waits, ∃ l, Inv N w.state l) → q.pop waits = .ret (r, q') → ∃ l, Inv N q' l := by
  induction waits with
  | nil =>
    intro q q' r h _ hp
    by_cases hs : q.m_size ≤ 0
    · unfold block_queue.pop at hp
      simp [hs] at hp
    · exact pop_nowait_preserves h (by omega) hp
  | cons w rest ih =>
    intro q q' r h hw hp
    by_cases hs : q.m_size ≤ 0
    · unfold block_queue.pop at hp
      simp only [hs, if_true] at hp
      cases hok : w.ok with
      | false =>
        simp only [hok, Bool.not_false, if_true, Res.ret.injEq, Prod.mk.injEq] at hp
        exact hp.2 ▸ hw w (List.mem_cons_self _ _)
      | true =>
        simp only [hok, Bool.not_true, Bool.false_eq_true, if_false] at hp
        exact ih w.state q' r (hw w (List.mem_cons_self _ _))
          (fun v hv => hw v (List.mem_cons_of_mem _ hv)) hp
    · rw [pop_of_pos q _ (by omega)] at hp
      exact pop_nowait_preserves h (by omega) hp

theorem pop_timed_preserves {N : Int} {q q' : block_queue T} {ms_timeout : Int} {now : timeval}
    {timewait : timespec → Wake T} {r : Option T} (h : ∃ l, Inv N q l)
    (hw : ∃ l, Inv N (timewait (block_queue.pop_deadline now ms_timeout)).state l)
    (hp : q.pop_timed ms_timeout now timewait = .ret (r, q')) : ∃ l, Inv N q' l := by
  by_cases hs : q.m_size ≤ 0
  · rw [pop_timed_of_empty q ms_timeout now timewait hs] at hp
    split at hp
    · simp only [Res.ret.injEq, Prod.mk.injEq] at hp
      exact hp.2 ▸ hw
    · split at hp
      · simp only [Res.ret.injEq, Prod.mk.injEq] at hp
        exact hp.2 ▸ hw
      · exact pop_nowait_preserves hw (by omega) hp
  · rw [pop_timed_of_pos q ms_timeout now timewait (by omega)] at hp
    exact pop_nowait_preserves h (by omega) hp

theorem reachable_inv [Inhabited T] {N : Int} {q : block_queue T} (h : Reachable N q) :
    ∃ l, Inv N q l := by
  induction h with
  | construct q hq =>
    have hN : 0 < N := by
      by_contra hn
      have : N ≤ 0 := by omega
      simp [block_queue.construct, this] at hq
    rw [construct_eq N hN] at hq
    simp only [Option.some.injEq] at hq
    exact ⟨[], hq ▸ inv_construct N hN⟩
  | push q q' item b _ hp ih => exact push_preserves ih hp
  | pop q q' waits r _ _ hp ih ihw => exact pop_preserves waits q q' r ih ihw hp
  | pop_timed q q' ms now tw r _ _ hp ih ihw => exact pop_timed_preserves ih ihw hp
  | clear q _ ih =>
    obtain ⟨l, inv⟩ := ih
    exact ⟨[], inv_clear inv⟩

/-- C10. In every reachable state of a queue of capacity `N`,
`0 ≤ size ≤ N` (and `max_size` is still `N`). -/
theorem size_within_capacity [Inhabited T] (N : Int) (q : block_queue T)
    (hq : Reachable N q) : 0 ≤ q.m_size ∧ q.m_size ≤ N ∧ q.m_max_size = N := by
  obtain ⟨l, inv⟩ := reachable_inv hq
  refine ⟨?_, ?_, inv.cap⟩
  · rw [inv.size_eq]; omega
  · rw [inv.size_eq]; exact inv.size_le

/-- C10 at capacity 1: after push A, a rejected push B, a pop and a timed pop
that times out, the size is within `[0, 1]`. -/
theorem size_within_capacity_witness :
    Reachable 1 (⟨["A"], 0, 1, 0, 0⟩ : block_queue String) ∧
    (0 : Int) ≤ (⟨["A"], 0, 1, 0, 0⟩ : block_queue String).m_size ∧
    (⟨["A"], 0, 1, 0, 0⟩ : block_queue String).m_size ≤ 1 ∧
    (⟨["A"], 0, 1, 0, 0⟩ : block_queue String).m_max_size = 1 :=
  have h0 : Reachable 1 (⟨[default], 0, 1, -1, -1⟩ : block_queue String) :=
    Reachable.construct _ (by decide)
  have h1 : Reachable 1 (⟨["A"], 1, 1, -1, 0⟩ : block_queue String) :=
    Reachable.push _ _ "A" true h0 (by decide)
  have h2 : Reachable 1 (⟨["A"], 1, 1, -1, 0⟩ : block_queue String) :=
    Reachable.push _ _ "B" false h1 (by decide)
  have h3 : Reachable 1 (⟨["A"], 0, 1, 0, 0⟩ : block_queue String) :=
    Reachable.pop _ _ [] (some "A") h2 (by simp) (by decide)
  have h4 : Reachable 1 (⟨["A"], 0, 1, 0, 0⟩ : block_queue String) :=
    Reachable.pop_timed _ _ 200 ⟨0, 0⟩ (fun _ => ⟨false, ⟨["A"], 0, 1, 0, 0⟩⟩) none h3
      h3 (by decide)
  ⟨h4, size_within_capacity 1 _ h4⟩

/-! ## `front` and the timed-wait deadline -/

/-- C7. `front` reads `m_array[m_front]`, the slot before the oldest live item.
Capacity 3: after push A, push B and a pop (which delivers A), `front` still
delivers A while the next pop delivers B; and right after the first push on a
fresh queue `front` reads index `-1`, outside the buffer. -/
theorem front_reads_slot_before_oldest :
    run_queue (⟨[default, default, default], 0, 3, -1, -1⟩ : block_queue String)
        [.push "A", .push "B", .pop]
      = .ret ([.pushed true, .pushed true, .popped (some "A")],
          ⟨["A", "B", default], 1, 3, 0, 1⟩) ∧
    (⟨["A", "B", default], 1, 3, 0, 1⟩ : block_queue String).front = .ret (some "A") ∧
    (⟨["A", "B", default], 1, 3, 0, 1⟩ : block_queue String).pop []
      = .ret (some "B", ⟨["A", "B", default], 0, 3, 1, 1⟩) ∧
    (⟨[default, default, default], 0, 3, -1, -1⟩ : block_queue String).push "A"
      = .ret (true, ⟨["A", default, default], 1, 3, -1, 0⟩) ∧
    (⟨["A", default, default], 1, 3, -1, 0⟩ : block_queue String).front = .fault := by
  decide

/-- C8. The deadline handed to the timed wait is not `now + T` milliseconds: the
remainder of the timeout is scaled by `1000` and `now.tv_usec` is dropped.  For
`T = 200` at clock reading `(0, 0)` the deadline is 200000 ns after the
reading instead of 200000000 ns; at `(1700000000, 500000)` it lies before the
reading itself. -/
theorem pop_deadline_is_not_now_plus_timeout :
    block_queue.pop_deadline ⟨0, 0⟩ 200 = ⟨0, 200000⟩ ∧
    (block_queue.pop_deadline ⟨0, 0⟩ 200).nanos = 200000 ∧
    (⟨0, 0⟩ : timeval).nanos + 200 * 1000000 = 200000000 ∧
    (block_queue.pop_deadline ⟨0, 0⟩ 200).nanos ≠ (⟨0, 0⟩ : timeval).nanos + 200 * 1000000 ∧
    block_queue.pop_deadline ⟨1700000000, 500000⟩ 200 = ⟨1700000000, 200000⟩ ∧
    (block_queue.pop_deadline ⟨1700000000, 500000⟩ 200).nanos
      < (⟨1700000000, 500000⟩ : timeval).nanos := by
  decide

/-! ## The connection pool -/

theorem init_loop_spec (mysql_init : Nat → MYSQL_ptr)
    (mysql_real_connect : Nat → MYSQL_ptr → MYSQL_ptr) (is : List Nat) :
    ∀ (p p' : connection_pool),
      is.foldlM (connection_pool.init_iteration mysql_init mysql_real_connect) p = some p' →
      p'.connList.length = p.connList.length + is.length ∧
      p'.m_FreeConn = p.m_FreeConn + is.length ∧
      p'.m_CurConn = p.m_CurConn ∧
      (NULL ∉ p.connList → NULL ∉ p'.connList) := by
  induction is with
  | nil =>
    intro p p' h
    simp only [List.foldlM_nil, pure, Option.some.injEq] at h
    subst h
    simp
  | cons i is ih =>
    intro p p' h
    rw [List.foldlM_cons] at h
    cases hstep : connection_pool.init_iteration mysql_init mysql_real_connect p i with
    | none => simp [hstep, bind] at h
    | some p1 =>
      simp only [hstep, bind, Option.bind] at h
      obtain ⟨h1, h2, h3, h4⟩ := ih p1 p' h
      unfold connection_pool.init_iteration at hstep
      by_cases ha : mysql_init i = NULL
      · simp [ha] at hstep
      · by_cases hb : mysql_real_connect i (mysql_init i) = NULL
        · simp [ha, hb] at hstep
        · simp only [ha, hb, if_false, Option.some.injEq] at hstep
          subst hstep
          simp only [List.length_append, List.length_singleton, List.length_cons,
            List.length_nil, Nat.cast_add, Nat.cast_one] at h1 h2 h3 h4 ⊢
          refine ⟨by omega, by omega, h3, fun hn => h4 ?_⟩
          simp only [List.mem_append, List.mem_singleton, not_or]
          exact ⟨hn, fun e => hb e.symm⟩

theorem pool_inv_init (MaxConn : Int) (mysql_init : Nat → MYSQL_ptr)
    (mysql_real_connect : Nat → MYSQL_ptr → MYSQL_ptr) (p0 : connection_pool)
    (h : connection_pool.construct.init MaxConn mysql_init mysql_real_connect = some p0) :
    PoolInv p0.m_MaxConn ⟨p0, []⟩ := by
  unfold connection_pool.init at h
  cases hl : (List.range MaxConn.toNat).foldlM
      (connection_pool.init_iteration mysql_init mysql_real_connect)
      connection_pool.construct with
  | none => simp [hl] at h
  | some p1 =>
    simp only [hl, Option.map_some', Option.some.injEq] at h
    obtain ⟨h1, h2, h3, h4⟩ := init_loop_spec mysql_init mysql_real_connect _ _ _ hl
    simp only [connection_pool.construct, List.length_nil, zero_add, List.length_range] at h1 h2 h3
    subst h
    refine ⟨rfl, ?_, ?_, ?_, ?_, ?_, ?_⟩
    · simp [h1, h2]
    · show p1.m_FreeConn.toNat = p1.connList.length
      omega
    · simp [h1, h2]
    · simp [h3]
    · exact h4 (by simp [connection_pool.construct])
    · simp

theorem pool_step_inv {c : Int} {s s' : PoolTrace} (op : PoolOp) (h : PoolInv c s)
    (hs : pool_step s op = some s') : PoolInv c s' := by
  obtain ⟨hcap, htot, hsem, hfree, hcur, hfn, hbn⟩ := h
  cases op with
  | acquire =>
    unfold pool_step connection_pool.GetConnection at hs
    cases hl : s.pool.connList with
    | nil =>
      simp only [hl, List.length_nil, if_true, Option.some.injEq] at hs
      subst hs
      exact ⟨hcap, by simpa [hl] using htot, by simpa [hl] using hsem,
        by simpa [hl] using hfree, by simpa using hcur, by simp [hl], by simpa using hbn⟩
    | cons con rest =>
      have hr : ¬ s.pool.reserve = 0 := by rw [hsem, hl]; simp
      have hcon : con ≠ NULL := by
        intro e
        apply hfn
        rw [hl, e]
        exact List.mem_cons_self _ _
      have hrest : NULL ∉ rest := fun hm => hfn (by rw [hl]; exact List.mem_cons_of_mem _ hm)
      simp only [hl, List.length_cons, hr, if_false, Option.some.injEq] at hs
      have hz : ¬ (0 = rest.length + 1) := by omega
      simp only [hz, if_false, hcon, Option.some.injEq] at hs
      subst hs
      rw [hl] at htot hsem hfree
      simp only [List.length_cons, Nat.cast_add, Nat.cast_one] at htot hsem hfree
      refine ⟨hcap, ?_, ?_, ?_, ?_, hrest, ?_⟩
      · simp only [List.length_cons, Nat.cast_add, Nat.cast_one]; omega
      · show s.pool.reserve - 1 = rest.length
        omega
      · show s.pool.m_FreeConn - 1 = (rest.length : Int)
        omega
      · show s.pool.m_CurConn + 1 = ((con :: s.borrowed).length : Int)
        simp only [List.length_cons, Nat.cast_add, Nat.cast_one]; omega
      · simp only [List.mem_cons, not_or]
        exact ⟨fun e => hcon e.symm, hbn⟩
  | release con =>
    unfold pool_step at hs
    by_cases hm : con ∈ s.borrowed
    · simp only [hm, if_true, Option.some.injEq] at hs
      have hcon : ¬ NULL = con := fun e => hbn (e ▸ hm)
      have hlen : (s.borrowed.erase con).length + 1 = s.borrowed.length := by
        rw [List.length_erase_of_mem hm]
        have : 0 < s.borrowed.length := List.length_pos_of_mem hm
        omega
      subst hs
      simp only [connection_pool.ReleaseConnection, hcon, if_false]
      refine ⟨hcap, ?_, ?_, ?_, ?_, ?_, ?_⟩
      · simp only [List.length_append, List.length_singleton, Nat.cast_add, Nat.cast_one]
        omega
      · simp only [List.length_append, List.length_singleton]; omega
      · simp only [List.length_append, List.length_singleton, Nat.cast_add, Nat.cast_one]
        omega
      · show s.pool.m_CurConn - 1 = ((s.borrowed.erase con).length : Int)
        omega
      · simp only [List.mem_append, List.mem_singleton, not_or]
        exact ⟨hfn, hcon⟩
      · exact fun hx => hbn (List.mem_of_mem_erase hx)
    · simp [hm] at hs

theorem pool_run_inv {c : Int} (ops : List PoolOp) :
    ∀ (s s' : PoolTrace), PoolInv c s → pool_run s ops = some s' → PoolInv c s' := by
  induction ops with
  | nil =>
    intro s s' h hr
    simp only [pool_run, Option.some.injEq] at hr
    exact hr ▸ h
  | cons op ops ih =>
    intro s s' h hr
    simp only [pool_run] at hr
    cases hstep : pool_step s op with
    | none => simp [hstep] at hr
    | some s1 =>
      simp only [hstep] at hr
      exact ih s1 s' (pool_step_inv op h hstep) hr

/-- C4. From a pool initialised with capacity `c = m_MaxConn`, after any
sequence of atomic acquire and release steps in which every release gives back
a handle that is currently borrowed, the number of handles handed out and not
yet released is at most `c` (it is `m_CurConn`, and together with the free list
it makes up `c`). -/
theorem borrowed_never_exceeds_capacity (MaxConn : Int) (mysql_init : Nat → MYSQL_ptr)
    (mysql_real_connect : Nat → MYSQL_ptr → MYSQL_ptr) (p0 : connection_pool)
    (hinit : connection_pool.construct.init MaxConn mysql_init mysql_real_connect = some p0)
    (ops : List PoolOp) (s : PoolTrace) (hrun : pool_run ⟨p0, []⟩ ops = some s) :
    (s.borrowed.length : Int) ≤ p0.m_MaxConn ∧
    s.pool.m_MaxConn = p0.m_MaxConn ∧
    s.pool.m_CurConn = (s.borrowed.length : Int) ∧
    (s.borrowed.length : Int) + s.pool.connList.length = p0.m_MaxConn := by
  have inv := pool_run_inv ops _ s
    (pool_inv_init MaxConn mysql_init mysql_real_connect p0 hinit) hrun
  refine ⟨?_, inv.cap, inv.cur, inv.total⟩
  have := inv.total
  omega

/-- C4 on a pool of two handles 1 and 2: acquire, acquire, acquire, release 1,
acquire leaves two handles borrowed. -/
theorem borrowed_never_exceeds_capacity_witness :
    connection_pool.construct.init 2 (fun i => i + 1) (fun _ con => con)
      = some ⟨2, 0, 2, [1, 2], 2⟩ ∧
    pool_run ⟨⟨2, 0, 2, [1, 2], 2⟩, []⟩
        [.acquire, .acquire, .acquire, .release 1, .acquire]
      = some ⟨⟨2, 2, 0, [], 0⟩, [1, 2]⟩ ∧
    ((([1, 2] : List MYSQL_ptr).length : Int) ≤ 2 ∧
      (2 : Int) = 2 ∧ (2 : Int) = (([1, 2] : List MYSQL_ptr).length : Int) ∧
      (([1, 2] : List MYSQL_ptr).length : Int) + (([] : List MYSQL_ptr).length : Int) = 2) :=
  ⟨by decide, by decide,
    borrowed_never_exceeds_capacity 2 (fun i => i + 1) (fun _ con => con) ⟨2, 0, 2, [1, 2], 2⟩
      (by decide) [.acquire, .acquire, .acquire, .release 1, .acquire]
      ⟨⟨2, 2, 0, [], 0⟩, [1, 2]⟩ (by decide)⟩

/-- C5. On an initialised pool of capacity 2 whose two handles are both
borrowed (free list empty, semaphore at 0), `GetConnection` returns `NULL` at
once with the pool unchanged; it does not wait on the semaphore. -/
theorem GetConnection_exhausted_returns_NULL :
    connection_pool.construct.init 2 (fun i => i + 1) (fun _ con => con)
      = some ⟨2, 0, 2, [1, 2], 2⟩ ∧
    pool_run ⟨⟨2, 0, 2, [1, 2], 2⟩, []⟩ [.acquire, .acquire]
      = some ⟨⟨2, 2, 0, [], 0⟩, [2, 1]⟩ ∧
    (⟨2, 2, 0, [], 0⟩ : connection_pool).GetConnection = .ret (NULL, ⟨2, 2, 0, [], 0⟩) ∧
    (⟨2, 2, 0, [], 0⟩ : connection_pool).GetConnection ≠ .blocked := by
  decide

/-- C6. Releasing non-null `H1` then `H2` into a pool whose free list is empty
makes the next two `GetConnection` calls return `H1` and then `H2`, emptying the
list again.  In general `GetConnection` (semaphore above 0) returns the head of
the free list and leaves its tail, and `ReleaseConnection` of a non-null handle
appends it at the end. -/
theorem pool_reuse_oldest_freed_first (p : connection_pool) (H1 H2 : MYSQL_ptr)
    (hempty : p.connList = []) (h1 : H1 ≠ NULL) (h2 : H2 ≠ NULL) :
    (∃ p1 p2 p3 p4 : connection_pool,
      p.ReleaseConnection H1 = (true, p1) ∧ p1.ReleaseConnection H2 = (true, p2) ∧
      p2.GetConnection = .ret (H1, p3) ∧ p3.GetConnection = .ret (H2, p4) ∧
      p4.connList = []) ∧
    (∀ (r : connection_pool) (con : MYSQL_ptr) (rest : List MYSQL_ptr),
      r.connList = con :: rest → 0 < r.reserve →
      ∃ r', r.GetConnection = .ret (con, r') ∧ r'.connList = rest) ∧
    (∀ (r : connection_pool) (con : MYSQL_ptr), con ≠ NULL →
      ∃ r', r.ReleaseConnection con = (true, r') ∧ r'.connList = r.connList ++ [con]) := by
  have hget : ∀ (r : connection_pool) (con : MYSQL_ptr) (rest : List MYSQL_ptr),
      r.connList = con :: rest → 0 < r.reserve →
      ∃ r', r.GetConnection = .ret (con, r') ∧ r'.connList = rest ∧
        r'.reserve = r.reserve - 1 := by
    intro r con rest hl hr
    have hr0 : ¬ r.reserve = 0 := by omega
    have hz : ¬ (0 = rest.length + 1) := by omega
    refine ⟨{ r with reserve := r.reserve - 1, connList := rest,
                     m_FreeConn := r.m_FreeConn - 1, m_CurConn := r.m_CurConn + 1 }, ?_, rfl, rfl⟩
    simp only [connection_pool.GetConnection, hl, List.length_cons, hr0, hz, if_false]
  have hrel : ∀ (r : connection_pool) (con : MYSQL_ptr), con ≠ NULL →
      ∃ r', r.ReleaseConnection con = (true, r') ∧ r'.connList = r.connList ++ [con] ∧
        r'.reserve = r.reserve + 1 := by
    intro r con hc
    have hn : ¬ NULL = con := fun e => hc e.symm
    exact ⟨{ r with connList := r.connList ++ [con], m_FreeConn := r.m_FreeConn + 1,
                    m_CurConn := r.m_CurConn - 1, reserve := r.reserve + 1 },
      by simp only [connection_pool.ReleaseConnection, hn, if_false], rfl, rfl⟩
  refine ⟨?_, ?_, ?_⟩
  · obtain ⟨p1, e1, l1, r1⟩ := hrel p H1 h1
    obtain ⟨p2, e2, l2, r2⟩ := hrel p1 H2 h2
    rw [l1, hempty, List.nil_append] at l2
    obtain ⟨p3, e3, l3, r3⟩ := hget p2 H1 [H2] l2 (by omega)
    obtain ⟨p4, e4, l4, _⟩ := hget p3 H2 [] l3 (by omega)
    exact ⟨p1, p2, p3, p4, e1, e2, e3, e4, l4⟩
  · intro r con rest hl hr
    obtain ⟨r', e, l, _⟩ := hget r con rest hl hr
    exact ⟨r', e, l⟩
  · intro r con hc
    obtain ⟨r', e, l, _⟩ := hrel r con hc
    exact ⟨r', e, l⟩

/-- C6 with handles 7 and 9 released into the exhausted pool of capacity 2. -/
theorem pool_reuse_oldest_freed_first_witness :
    (∃ p1 p2 p3 p4 : connection_pool,
      (⟨2, 2, 0, [], 0⟩ : connection_pool).ReleaseConnection 7 = (true, p1) ∧
      p1.ReleaseConnection 9 = (true, p2) ∧
      p2.GetConnection = .ret (7, p3) ∧ p3.GetConnection = .ret (9, p4) ∧
      p4.connList = []) :=
  (pool_reuse_oldest_freed_first ⟨2, 2, 0, [], 0⟩ 7 9 rfl (by decide) (by decide)).1

/-! ## Sentinel indices and buffer accesses -/

theorem push_eq_of_lt {N : Int} {q : block_queue T} {l : List T} (h : Inv N q l)
    (hlt : (l.length : Int) < N) (x : T) :
    q.push x = .ret (true, { q with m_back := (q.m_back + 1) % N,
                                    m_array := q.m_array.set ((q.m_back + 1) % N).toNat x,
                                    m_size := q.m_size + 1 }) := by
  obtain ⟨hadv, hadv0, hadv1⟩ := advance_eq q.m_back N h.pos h.back_lb
  have hw := slot_write_of_lt q.m_array ((q.m_back + 1) % N) x hadv0
    (by have := h.len; omega)
  have hsz := h.size_eq
  have hcap := h.cap
  have hN := h.pos
  have h1 : ¬ q.m_size ≥ q.m_max_size := by omega
  have h2 : ¬ q.m_max_size = 0 := by omega
  have h3 : ¬ q.m_size ≥ N := by omega
  have h4 : ¬ N = 0 := by omega
  simp only [block_queue.push, h1, h2, h3, h4, if_false, hcap, hadv, hw]

theorem pop_eq_of_pos {N : Int} {q : block_queue T} {l : List T} (h : Inv N q l)
    (hpos : 0 < q.m_size) :
    ∃ x : T, slot_read q.m_array ((q.m_front + 1) % N) = some x ∧
      q.pop [] = .ret (some x, { q with m_front := (q.m_front + 1) % N,
                                        m_size := q.m_size - 1 }) := by
  obtain ⟨hadv, _, _⟩ := advance_eq q.m_front N h.pos h.front_lb
  cases l with
  | nil => have := h.size_eq; simp at this; omega
  | cons x rest =>
    have hrd : slot_read q.m_array ((q.m_front + 1) % N) = some x := by
      have := h.slots 0 (by simp)
      simpa using this
    refine ⟨x, hrd, ?_⟩
    have hcap := h.cap
    have hN := h.pos
    have h1 : ¬ q.m_size ≤ 0 := by omega
    have h2 : ¬ q.m_max_size = 0 := by omega
    have h4 : ¬ N = 0 := by omega
    unfold block_queue.pop
    simp only [h1, h2, h4, if_false, hcap, hadv, hrd]

theorem pop_ret_cases (waits : List (Wake T)) :
    ∀ (q q' : block_queue T) (r : Option T), q.pop waits = .ret (r, q') →
      (∃ s, (s = q ∨ ∃ w ∈ waits, s = w.state) ∧ 0 < s.m_size ∧ s.pop [] = .ret (r, q')) ∨
      (∃ w ∈ waits, q' = w.state ∧ r = none) := by
  induction waits with
  | nil =>
    intro q q' r hp
    by_cases hs : q.m_size ≤ 0
    · unfold block_queue.pop at hp
      simp [hs] at hp
    · exact Or.inl ⟨q, Or.inl rfl, by omega, hp⟩
  | cons w rest ih =>
    intro q q' r hp
    by_cases hs : q.m_size ≤ 0
    · unfold block_queue.pop at hp
      simp only [hs, if_true] at hp
      cases hok : w.ok with
      | false =>
        simp only [hok, Bool.not_false, if_true, Res.ret.injEq, Prod.mk.injEq] at hp
        exact Or.inr ⟨w, List.mem_cons_self _ _, hp.2.symm, hp.1.symm⟩
      | true =>
        simp only [hok, Bool.not_true, Bool.false_eq_true, if_false] at hp
        rcases ih w.state q' r hp with ⟨s, hs1, hs2, hs3⟩ | ⟨v, hv, hv1, hv2⟩
        · refine Or.inl ⟨s, Or.inr ?_, hs2, hs3⟩
          rcases hs1 with rfl | ⟨v, hv, rfl⟩
          · exact ⟨w, List.mem_cons_self _ _, rfl⟩
          · exact ⟨v, List.mem_cons_of_mem _ hv, rfl⟩
        · exact Or.inr ⟨v, List.mem_cons_of_mem _ hv, hv1, hv2⟩
    · rw [pop_of_pos q _ (by omega)] at hp
      exact Or.inl ⟨q, Or.inl rfl, by omega, hp⟩

theorem pop_timed_ret_cases (q q' : block_queue T) (ms_timeout : Int) (now : timeval)
    (timewait : timespec → Wake T) (r : Option T)
    (hp : q.pop_timed ms_timeout now timewait = .ret (r, q')) :
    (∃ s, (s = q ∨ s = (timewait (block_queue.pop_deadline now ms_timeout)).state) ∧
      0 < s.m_size ∧ s.pop [] = .ret (r, q')) ∨
    (q' = (timewait (block_queue.pop_deadline now ms_timeout)).state ∧ r = none) := by
  by_cases hs : q.m_size ≤ 0
  · rw [pop_timed_of_empty q ms_timeout now timewait hs] at hp
    split at hp
    · simp only [Res.ret.injEq, Prod.mk.injEq] at hp
      exact Or.inr ⟨hp.2.symm, hp.1.symm⟩
    · split at hp
      · simp only [Res.ret.injEq, Prod.mk.injEq] at hp
        exact Or.inr ⟨hp.2.symm, hp.1.symm⟩
      · exact Or.inl ⟨_, Or.inr rfl, by omega, hp⟩
  · rw [pop_timed_of_pos q ms_timeout now timewait (by omega)] at hp
    exact Or.inl ⟨q, Or.inl rfl, by omega, hp⟩

theorem sentinel_push {N : Int} {q q' : block_queue T} {l : List T} {item : T} {b : Bool}
    (inv : Inv N q l) (hs : Sentinel q) (hp : q.push item = .ret (b, q')) : Sentinel q' := by
  by_cases hfull : (l.length : Int) < N
  · rw [push_eq_of_lt inv hfull item] at hp
    simp only [Res.ret.injEq, Prod.mk.injEq] at hp
    obtain ⟨_, rfl⟩ := hp
    obtain ⟨_, hadv0, _⟩ := advance_eq q.m_back N inv.pos inv.back_lb
    constructor
    · intro hf
      show (q.m_back + 1) % N = q.m_size + 1 - 1
      have hb := hs.front_fresh hf
      have hsz := inv.size_eq
      rw [Int.emod_eq_of_lt (by omega) (by omega)]
      omega
    · intro hb
      have : (q.m_back + 1) % N = -1 := hb
      omega
  · have hq : q.m_size ≥ q.m_max_size := by rw [inv.size_eq, inv.cap]; omega
    rw [push_full q item hq] at hp
    simp only [Res.ret.injEq, Prod.mk.injEq] at hp
    exact hp.2 ▸ hs

theorem sentinel_pop_nowait {N : Int} {q q' : block_queue T} {l : List T} {r : Option T}
    (inv : Inv N q l) (hs : Sentinel q) (hpos : 0 < q.m_size)
    (hp : q.pop [] = .ret (r, q')) : Sentinel q' := by
  obtain ⟨x, _, he⟩ := pop_eq_of_pos inv hpos
  rw [he] at hp
  simp only [Res.ret.injEq, Prod.mk.injEq] at hp
  obtain ⟨_, rfl⟩ := hp
  obtain ⟨_, hadv0, _⟩ := advance_eq q.m_front N inv.pos inv.front_lb
  constructor
  · intro hf
    have : (q.m_front + 1) % N = -1 := hf
    omega
  · intro hb
    have := hs.back_fresh hb
    omega

theorem reachable_sentinel [Inhabited T] {N : Int} {q : block_queue T} (h : Reachable N q) :
    Sentinel q := by
  induction h with
  | construct q hq =>
    have hN : 0 < N := by
      by_contra hn
      have : N ≤ 0 := by omega
      simp [block_queue.construct, this] at hq
    rw [construct_eq N hN] at hq
    simp only [Option.some.injEq] at hq
    subst hq
    exact ⟨fun _ => by simp, fun _ => by simp⟩
  | push q q' item b hq hp ih =>
    obtain ⟨l, inv⟩ := reachable_inv hq
    exact sentinel_push inv ih hp
  | pop q q' waits r hq hw hp ih ihw =>
    rcases pop_ret_cases waits q q' r hp with ⟨s, hs1, hs2, hs3⟩ | ⟨w, hw1, hw2, _⟩
    · rcases hs1 with rfl | ⟨w, hw1, rfl⟩
      · obtain ⟨l, inv⟩ := reachable_inv hq
        exact sentinel_pop_nowait inv ih hs2 hs3
      · obtain ⟨l, inv⟩ := reachable_inv (hw w hw1)
        exact sentinel_pop_nowait inv (ihw w hw1) hs2 hs3
    · exact hw2 ▸ ihw w hw1
  | pop_timed q q' ms now tw r hq hw hp ih ihw =>
    rcases pop_timed_ret_cases q q' ms now tw r hp with ⟨s, hs1, hs2, hs3⟩ | ⟨hw2, _⟩
    · rcases hs1 with rfl | rfl
      · obtain ⟨l, inv⟩ := reachable_inv hq
        exact sentinel_pop_nowait inv ih hs2 hs3
      · obtain ⟨l, inv⟩ := reachable_inv hw
        exact sentinel_pop_nowait inv ihw hs2 hs3
    · exact hw2 ▸ ihw
  | clear q _ _ => exact ⟨fun _ => by simp [block_queue.clear], fun _ => by simp [block_queue.clear]⟩

/-- C11, as stated, fails: at capacity 3, after push A, B, C, a pop and push D
the queue is full (`size = 3`) with `front = back = 0`. -/
theorem front_eq_back_on_full_queue :
    Reachable 3 (⟨["D", "B", "C"], 3, 3, 0, 0⟩ : block_queue String) ∧
    ¬ ((⟨["D", "B", "C"], 3, 3, 0, 0⟩ : block_queue String).m_size = 0 ↔
        (⟨["D", "B", "C"], 3, 3, 0, 0⟩ : block_queue String).m_front
          = (⟨["D", "B", "C"], 3, 3, 0, 0⟩ : block_queue String).m_back) :=
  have h0 : Reachable 3 (⟨[default, default, default], 0, 3, -1, -1⟩ : block_queue String) :=
    Reachable.construct _ (by decide)
  have h1 : Reachable 3 (⟨["A", default, default], 1, 3, -1, 0⟩ : block_queue String) :=
    Reachable.push _ _ "A" true h0 (by decide)
  have h2 : Reachable 3 (⟨["A", "B", default], 2, 3, -1, 1⟩ : block_queue String) :=
    Reachable.push _ _ "B" true h1 (by decide)
  have h3 : Reachable 3 (⟨["A", "B", "C"], 3, 3, -1, 2⟩ : block_queue String) :=
    Reachable.push _ _ "C" true h2 (by decide)
  have h4 : Reachable 3 (⟨["A", "B", "C"], 2, 3, 0, 2⟩ : block_queue String) :=
    Reachable.pop _ _ [] (some "A") h3 (by simp) (by decide)
  have h5 : Reachable 3 (⟨["D", "B", "C"], 3, 3, 0, 0⟩ : block_queue String) :=
    Reachable.push _ _ "D" true h4 (by decide)
  ⟨h5, by decide⟩

/-- C11, amended. In every reachable state `size == 0` implies `front == back`,
and `front == back` implies that the queue is empty or full (`size == 0` or
`size == N`). -/
theorem size_zero_implies_front_eq_back [Inhabited T] (N : Int) (q : block_queue T)
    (hq : Reachable N q) :
    (q.m_size = 0 → q.m_front = q.m_back) ∧
    (q.m_front = q.m_back → q.m_size = 0 ∨ q.m_size = N) := by
  obtain ⟨l, inv⟩ := reachable_inv hq
  have hs := reachable_sentinel hq
  obtain ⟨hN, _, _, hsz, hle, hf0, hf1, hb0, hb1, hring, _⟩ := inv
  constructor
  · intro h0
    by_cases hf : q.m_front = -1
    · have := hs.front_fresh hf
      omega
    · by_cases hb : q.m_back = -1
      · have := (hs.back_fresh hb).1
        omega
      · rw [h0, add_zero, Int.emod_eq_of_lt (by omega) hf1,
          Int.emod_eq_of_lt (by omega) hb1] at hring
        exact hring
  · intro he
    rw [← he] at hring
    have h2 : (q.m_front + q.m_size - q.m_front) % N = 0 :=
      Int.emod_eq_emod_iff_emod_sub_eq_zero.mp hring
    have h3 : q.m_front + q.m_size - q.m_front = q.m_size := by ring
    rw [h3] at h2
    by_cases hlt : q.m_size < N
    · rw [Int.emod_eq_of_lt (by omega) hlt] at h2
      exact Or.inl h2
    · exact Or.inr (by omega)

/-- C11 amended, on the full queue of capacity 3 with `front = back = 0`. -/
theorem size_zero_implies_front_eq_back_witness :
    Reachable 3 (⟨["D", "B", "C"], 3, 3, 0, 0⟩ : block_queue String) ∧
    (((3 : Int) = 0 → (0 : Int) = 0) ∧ ((0 : Int) = 0 → (3 : Int) = 0 ∨ (3 : Int) = 3)) :=
  have h0 : Reachable 3 (⟨[default, default, default], 0, 3, -1, -1⟩ : block_queue String) :=
    Reachable.construct _ (by decide)
  have h1 : Reachable 3 (⟨["A", default, default], 1, 3, -1, 0⟩ : block_queue String) :=
    Reachable.push _ _ "A" true h0 (by decide)
  have h2 : Reachable 3 (⟨["A", "B", default], 2, 3, -1, 1⟩ : block_queue String) :=
    Reachable.push _ _ "B" true h1 (by decide)
  have h3 : Reachable 3 (⟨["A", "B", "C"], 3, 3, -1, 2⟩ : block_queue String) :=
    Reachable.push _ _ "C" true h2 (by decide)
  have h4 : Reachable 3 (⟨["A", "B", "C"], 2, 3, 0, 2⟩ : block_queue String) :=
    Reachable.pop _ _ [] (some "A") h3 (by simp) (by decide)
  have h5 : Reachable 3 (⟨["D", "B", "C"], 3, 3, 0, 0⟩ : block_queue String) :=
    Reachable.push _ _ "D" true h4 (by decide)
  ⟨h5, size_zero_implies_front_eq_back 3 _ h5⟩

theorem push_no_fault {N : Int} {q : block_queue T} (h : ∃ l, Inv N q l) (item : T) :
    q.push item ≠ .fault := by
  obtain ⟨l, inv⟩ := h
  by_cases hfull : (l.length : Int) < N
  · rw [push_eq_of_lt inv hfull item]; exact fun e => by cases e
  · have hq : q.m_size ≥ q.m_max_size := by rw [inv.size_eq, inv.cap]; omega
    rw [push_full q item hq]; exact fun e => by cases e

theorem pop_nowait_no_fault {N : Int} {q : block_queue T} (h : ∃ l, Inv N q l) :
    q.pop [] ≠ .fault := by
  obtain ⟨l, inv⟩ := h
  by_cases hs : q.m_size ≤ 0
  · unfold block_queue.pop
    simp [hs]
  · obtain ⟨x, _, he⟩ := pop_eq_of_pos inv (by omega)
    rw [he]; exact fun e => by cases e

theorem pop_no_fault {N : Int} (waits : List (Wake T)) :
    ∀ (q : block_queue T), (∃ l, Inv N q l) → (∀ w ∈ waits, ∃ l, Inv N w.state l) →
      q.pop waits ≠ .fault := by
  induction waits with
  | nil => intro q h _; exact pop_nowait_no_fault h
  | cons w rest ih =>
    intro q h hw
    by_cases hs : q.m_size ≤ 0
    · unfold block_queue.pop
      simp only [hs, if_true]
      cases hok : w.ok with
      | false => simp
      | true =>
        simp only [Bool.not_true, Bool.false_eq_true, if_false]
        exact ih w.state (hw w (List.mem_cons_self _ _))
          (fun v hv => hw v (List.mem_cons_of_mem _ hv))
    · rw [pop_of_pos q _ (by omega)]
      exact pop_nowait_no_fault h

theorem pop_timed_no_fault {N : Int} {q : block_queue T} (ms_timeout : Int) (now : timeval)
    (timewait : timespec → Wake T) (h : ∃ l, Inv N q l)
    (hw : ∃ l, Inv N (timewait (block_queue.pop_deadline now ms_timeout)).state l) :
    q.pop_timed ms_timeout now timewait ≠ .fault := by
  by_cases hs : q.m_size ≤ 0
  · rw [pop_timed_of_empty q ms_timeout now timewait hs]
    split
    · exact fun e => by cases e
    · split
      · exact fun e => by cases e
      · exact pop_nowait_no_fault hw
  · rw [pop_timed_of_pos q ms_timeout now timewait (by omega)]
    exact pop_nowait_no_fault h

theorem back_no_fault {N : Int} {q : block_queue T} {l : List T} (inv : Inv N q l)
    (hs : Sentinel q) : q.back ≠ .fault := by
  unfold block_queue.back
  by_cases h0 : 0 = q.m_size
  · simp [h0]
  · have hsz := inv.size_eq
    have hb0 := inv.back_lb
    have hb1 := inv.back_ub
    have hlen := inv.len
    have hb : 0 ≤ q.m_back := by
      by_contra hn
      have := (hs.back_fresh (by omega)).2
      omega
    have hlt : q.m_back.toNat < q.m_array.length := by omega
    simp only [h0, if_false, slot_read_of_nonneg _ _ hb, List.getElem?_eq_getElem hlt]
    exact fun e => by cases e

/-- C20. In every reachable state of a queue of capacity `N`: `N > 0`, the
buffer has `N` slots, `-1 ≤ front < N` and `-1 ≤ back < N`; the index written by
`push` (the advanced `back`) and the index read by either `pop` (the advanced
`front`) lie in `[0, N)`, as does `back` itself when the queue is not empty; and
`push`, `pop`, the timed `pop` (their wake-ups finding reachable states) and
`back` never take the out-of-range branch. -/
theorem indices_in_range [Inhabited T] (N : Int) (q : block_queue T) (hq : Reachable N q) :
    0 < N ∧ (q.m_array.length : Int) = N ∧ q.m_max_size = N ∧
    (-1 ≤ q.m_front ∧ q.m_front < N) ∧ (-1 ≤ q.m_back ∧ q.m_back < N) ∧
    (0 ≤ (q.m_back + 1).tmod q.m_max_size ∧ (q.m_back + 1).tmod q.m_max_size < N) ∧
    (0 ≤ (q.m_front + 1).tmod q.m_max_size ∧ (q.m_front + 1).tmod q.m_max_size < N) ∧
    (0 < q.m_size → 0 ≤ q.m_back) ∧
    (∀ item : T, q.push item ≠ .fault) ∧
    (∀ waits : List (Wake T), (∀ w ∈ waits, Reachable N w.state) → q.pop waits ≠ .fault) ∧
    (∀ (ms_timeout : Int) (now : timeval) (timewait : timespec → Wake T),
      Reachable N (timewait (block_queue.pop_deadline now ms_timeout)).state →
      q.pop_timed ms_timeout now timewait ≠ .fault) ∧
    q.back ≠ .fault := by
  obtain ⟨l, inv⟩ := reachable_inv hq
  have hs := reachable_sentinel hq
  obtain ⟨hb, hb0, hb1⟩ := advance_eq q.m_back N inv.pos inv.back_lb
  obtain ⟨hf, hf0, hf1⟩ := advance_eq q.m_front N inv.pos inv.front_lb
  refine ⟨inv.pos, inv.len, inv.cap, ⟨inv.front_lb, inv.front_ub⟩, ⟨inv.back_lb, inv.back_ub⟩,
    ?_, ?_, ?_, fun item => push_no_fault ⟨l, inv⟩ item, ?_, ?_, back_no_fault inv hs⟩
  · rw [inv.cap, hb]; exact ⟨hb0, hb1⟩
  · rw [inv.cap, hf]; exact ⟨hf0, hf1⟩
  · intro hpos
    by_contra hn
    have := (hs.back_fresh (by have := inv.back_lb; omega)).2
    omega
  · intro waits hw
    exact pop_no_fault waits q ⟨l, inv⟩ (fun w hw1 => reachable_inv (hw w hw1))
  · intro ms now tw hw
    exact pop_timed_no_fault ms now tw ⟨l, inv⟩ (reachable_inv hw)

/-- C20 on the full queue of capacity 3 reached by push A, B, C, pop, push D. -/
theorem indices_in_range_witness :
    Reachable 3 (⟨["D", "B", "C"], 3, 3, 0, 0⟩ : block_queue String) ∧
    (⟨["D", "B", "C"], 3, 3, 0, 0⟩ : block_queue String).push "E" ≠ .fault ∧
    (⟨["D", "B", "C"], 3, 3, 0, 0⟩ : block_queue String).pop [] ≠ .fault ∧
    (⟨["D", "B", "C"], 3, 3, 0, 0⟩ : block_queue String).back ≠ .fault :=
  have h0 : Reachable 3 (⟨[default, default, default], 0, 3, -1, -1⟩ : block_queue String) :=
    Reachable.construct _ (by decide)
  have h1 : Reachable 3 (⟨["A", default, default], 1, 3, -1, 0⟩ : block_queue String) :=
    Reachable.push _ _ "A" true h0 (by decide)
  have h2 : Reachable 3 (⟨["A", "B", default], 2, 3, -1, 1⟩ : block_queue String) :=
    Reachable.push _ _ "B" true h1 (by decide)
  have h3 : Reachable 3 (⟨["A", "B", "C"], 3, 3, -1, 2⟩ : block_queue String) :=
    Reachable.push _ _ "C" true h2 (by decide)
  have h4 : Reachable 3 (⟨["A", "B", "C"], 2, 3, 0, 2⟩ : block_queue String) :=
    Reachable.pop _ _ [] (some "A") h3 (by simp) (by decide)
  have h5 : Reachable 3 (⟨["D", "B", "C"], 3, 3, 0, 0⟩ : block_queue String) :=
    Reachable.push _ _ "D" true h4 (by decide)
  have h := indices_in_range 3 _ h5
  ⟨h5, h.2.2.2.2.2.2.2.2.1 "E", h.2.2.2.2.2.2.2.2.2.1 [] (by simp), h.2.2.2.2.2.2.2.2.2.2.2⟩

/-! ## `clear` -/

theorem call_step_agree {N : Int} {q1 q2 : block_queue T} {l : List T} (h1 : Inv N q1 l)
    (h2 : Inv N q2 l) (c : Call T) :
    (call_step q1 c = .blocked ∧ call_step q2 c = .blocked) ∨
    ∃ (r : Reply T) (q1' q2' : block_queue T) (l' : List T),
      call_step q1 c = .ret (r, q1') ∧ call_step q2 c = .ret (r, q2') ∧
      Inv N q1' l' ∧ Inv N q2' l' := by
  cases c with
  | push item =>
    by_cases hfull : (l.length : Int) < N
    · obtain ⟨p1, e1, i1⟩ := inv_push h1 hfull item
      obtain ⟨p2, e2, i2⟩ := inv_push h2 hfull item
      exact Or.inr ⟨.push true, p1, p2, _, by simp [call_step, e1], by simp [call_step, e2],
        i1, i2⟩
    · have f1 : q1.m_size ≥ q1.m_max_size := by rw [h1.size_eq, h1.cap]; omega
      have f2 : q2.m_size ≥ q2.m_max_size := by rw [h2.size_eq, h2.cap]; omega
      exact Or.inr ⟨.push false, q1, q2, l, by simp [call_step, push_full q1 item f1],
        by simp [call_step, push_full q2 item f2], h1, h2⟩
  | pop =>
    cases l with
    | nil =>
      have z1 : q1.m_size ≤ 0 := by have := h1.size_eq; simp at this; omega
      have z2 : q2.m_size ≤ 0 := by have := h2.size_eq; simp at this; omega
      have b1 : q1.pop [] = .blocked := by unfold block_queue.pop; simp [z1]
      have b2 : q2.pop [] = .blocked := by unfold block_queue.pop; simp [z2]
      exact Or.inl ⟨by simp [call_step, b1], by simp [call_step, b2]⟩
    | cons x rest =>
      obtain ⟨p1, e1, i1⟩ := inv_pop h1 []
      obtain ⟨p2, e2, i2⟩ := inv_pop h2 []
      exact Or.inr ⟨.pop (some x), p1, p2, rest, by simp [call_step, e1],
        by simp [call_step, e2], i1, i2⟩
  | size =>
    refine Or.inr ⟨.size q1.size, q1, q2, l, rfl, ?_, h1, h2⟩
    simp [call_step, block_queue.size, h1.size_eq, h2.size_eq]
  | empty =>
    refine Or.inr ⟨.empty q1.empty, q1, q2, l, rfl, ?_, h1, h2⟩
    simp [call_step, block_queue.empty, h1.size_eq, h2.size_eq]
  | full =>
    refine Or.inr ⟨.full q1.full, q1, q2, l, rfl, ?_, h1, h2⟩
    simp [call_step, block_queue.full, h1.size_eq, h2.size_eq, h1.cap, h2.cap]

theorem run_calls_agree {N : Int} (cs : List (Call T)) :
    ∀ (q1 q2 : block_queue T) (l : List T), Inv N q1 l → Inv N q2 l →
      replies (run_calls q1 cs) = replies (run_calls q2 cs) := by
  induction cs with
  | nil => intro q1 q2 l _ _; rfl
  | cons c cs ih =>
    intro q1 q2 l h1 h2
    rcases call_step_agree h1 h2 c with ⟨b1, b2⟩ | ⟨r, p1, p2, l', e1, e2, i1, i2⟩
    · simp [run_calls, b1, b2, replies]
    · have hrec := ih p1 p2 l' i1 i2
      simp only [run_calls, e1, e2]
      cases r1 : run_calls p1 cs with
      | ret a =>
        cases r2 : run_calls p2 cs with
        | ret b =>
          rw [r1, r2] at hrec
          simp only [replies, Res.ret.injEq] at hrec
          simp [replies, hrec]
        | blocked => rw [r1, r2] at hrec; simp [replies] at hrec
        | fault => rw [r1, r2] at hrec; simp [replies] at hrec
      | blocked =>
        cases r2 : run_calls p2 cs with
        | ret b => rw [r1, r2] at hrec; simp [replies] at hrec
        | blocked => rfl
        | fault => rw [r1, r2] at hrec; simp [replies] at hrec
      | fault =>
        cases r2 : run_calls p2 cs with
        | ret b => rw [r1, r2] at hrec; simp [replies] at hrec
        | blocked => rw [r1, r2] at hrec; simp [replies] at hrec
        | fault => rfl

/-- C18. From a reachable state of a queue of capacity `N`, `clear()` sets
`size = 0` and `front = back = -1` and leaves the buffer (and the capacity) as
they are; afterwards every sequence of `push`, `pop`, `size`, `empty` and `full`
calls gets the same replies, popped items included, as on a freshly constructed
queue of capacity `N`. -/
theorem clear_is_observationally_fresh [Inhabited T] (N : Int) (q : block_queue T)
    (hq : Reachable N q) :
    q.clear.m_size = 0 ∧ q.clear.m_front = -1 ∧ q.clear.m_back = -1 ∧
    q.clear.m_array = q.m_array ∧ q.clear.m_max_size = q.m_max_size ∧
    ∃ fresh : block_queue T, block_queue.construct N = some fresh ∧
      ∀ calls : List (Call T),
        replies (run_calls q.clear calls) = replies (run_calls fresh calls) := by
  obtain ⟨l, inv⟩ := reachable_inv hq
  exact ⟨rfl, rfl, rfl, rfl, rfl, _, construct_eq N inv.pos, fun calls =>
    run_calls_agree calls _ _ [] (inv_clear inv) (inv_construct N inv.pos)⟩

/-- C18 on the queue of capacity 2 holding A and B: after `clear`, push C, pop,
size and full reply as on a fresh queue, and the pop delivers C, not A. -/
theorem clear_is_observationally_fresh_witness :
    Reachable 2 (⟨["A", "B"], 2, 2, -1, 1⟩ : block_queue String) ∧
    replies (run_calls (⟨["A", "B"], 2, 2, -1, 1⟩ : block_queue String).clear
        [.push "C", .pop, .size, .full])
      = .ret [.push true, .pop (some "C"), .size 0, .full false] ∧
    ((⟨["A", "B"], 2, 2, -1, 1⟩ : block_queue String).clear.m_size = 0 ∧
      (⟨["A", "B"], 2, 2, -1, 1⟩ : block_queue String).clear.m_front = -1 ∧
      (⟨["A", "B"], 2, 2, -1, 1⟩ : block_queue String).clear.m_back = -1 ∧
      (⟨["A", "B"], 2, 2, -1, 1⟩ : block_queue String).clear.m_array = ["A", "B"] ∧
      (⟨["A", "B"], 2, 2, -1, 1⟩ : block_queue String).clear.m_max_size = 2 ∧
      ∃ fresh : block_queue String, block_queue.construct 2 = some fresh ∧
        ∀ calls : List (Call String),
          replies (run_calls (⟨["A", "B"], 2, 2, -1, 1⟩ : block_queue String).clear calls)
            = replies (run_calls fresh calls)) :=
  have h0 : Reachable 2 (⟨[default, default], 0, 2, -1, -1⟩ : block_queue String) :=
    Reachable.construct _ (by decide)
  have h1 : Reachable 2 (⟨["A", default], 1, 2, -1, 0⟩ : block_queue String) :=
    Reachable.push _ _ "A" true h0 (by decide)
  have h2 : Reachable 2 (⟨["A", "B"], 2, 2, -1, 1⟩ : block_queue String) :=
    Reachable.push _ _ "B" true h1 (by decide)
  ⟨h2, by decide, clear_is_observationally_fresh 2 _ h2⟩

/-! ## Completed pool calls in any order -/

theorem init_loop_list (mysql_init : Nat → MYSQL_ptr)
    (mysql_real_connect : Nat → MYSQL_ptr → MYSQL_ptr) (is : List Nat) :
    ∀ (p p' : connection_pool),
      is.foldlM (connection_pool.init_iteration mysql_init mysql_real_connect) p = some p' →
      p'.connList = p.connList ++ is.map (fun i => mysql_real_connect i (mysql_init i)) ∧
      (∀ i ∈ is, mysql_init i ≠ NULL ∧ mysql_real_connect i (mysql_init i) ≠ NULL) ∧
      p'.m_MaxConn = p.m_MaxConn ∧ p'.reserve = p.reserve := by
  induction is with
  | nil =>
    intro p p' h
    simp only [List.foldlM_nil, pure, Option.some.injEq] at h
    subst h
    simp
  | cons i is ih =>
    intro p p' h
    rw [List.foldlM_cons] at h
    cases hstep : connection_pool.init_iteration mysql_init mysql_real_connect p i with
    | none => simp [hstep, bind] at h
    | some p1 =>
      simp only [hstep, bind, Option.bind] at h
      obtain ⟨h1, h2, h3, h4⟩ := ih p1 p' h
      unfold connection_pool.init_iteration at hstep
      by_cases ha : mysql_init i = NULL
      · simp [ha] at hstep
      · by_cases hb : mysql_real_connect i (mysql_init i) = NULL
        · simp [ha, hb] at hstep
        · simp only [ha, hb, if_false, Option.some.injEq] at hstep
          subst hstep
          refine ⟨by simpa using h1, ?_, h3, h4⟩
          intro j hj
          rcases List.mem_cons.mp hj with rfl | hj
          · exact ⟨ha, hb⟩
          · exact h2 j hj

theorem init_result (MaxConn : Int) (mysql_init : Nat → MYSQL_ptr)
    (mysql_real_connect : Nat → MYSQL_ptr → MYSQL_ptr) (p : connection_pool)
    (h : connection_pool.construct.init MaxConn mysql_init mysql_real_connect = some p) :
    p.connList = opened mysql_init mysql_real_connect MaxConn.toNat ∧
    (∀ i < MaxConn.toNat, mysql_init i ≠ NULL ∧ mysql_real_connect i (mysql_init i) ≠ NULL) ∧
    p.m_CurConn = 0 ∧ p.m_FreeConn = (MaxConn.toNat : Int) ∧
    p.m_MaxConn = (MaxConn.toNat : Int) ∧ p.reserve = MaxConn.toNat ∧
    p.connList.length = MaxConn.toNat := by
  unfold connection_pool.init at h
  cases hl : (List.range MaxConn.toNat).foldlM
      (connection_pool.init_iteration mysql_init mysql_real_connect)
      connection_pool.construct with
  | none => simp [hl] at h
  | some p1 =>
    simp only [hl, Option.map_some', Option.some.injEq] at h
    obtain ⟨h1, h2, h3, h4⟩ := init_loop_spec mysql_init mysql_real_connect _ _ _ hl
    obtain ⟨g1, g2, _, _⟩ := init_loop_list mysql_init mysql_real_connect _ _ _ hl
    simp only [connection_pool.construct, List.length_nil, zero_add, List.length_range,
      List.nil_append] at h1 h2 h3 g1
    subst h
    refine ⟨g1, fun i hi => g2 i (List.mem_range.mpr hi), h3, h2, h2, ?_, h1⟩
    show p1.m_FreeConn.toNat = MaxConn.toNat
    omega

theorem pool_counts_init (MaxConn : Int) (mysql_init : Nat → MYSQL_ptr)
    (mysql_real_connect : Nat → MYSQL_ptr → MYSQL_ptr) (p0 : connection_pool)
    (h : connection_pool.construct.init MaxConn mysql_init mysql_real_connect = some p0) :
    PoolCounts p0 ∧ PoolBound p0 := by
  have inv := pool_inv_init MaxConn mysql_init mysql_real_connect p0 h
  have hfree : p0.m_FreeConn = p0.connList.length := inv.free
  have hcur : p0.m_CurConn = 0 := by simpa using inv.cur
  have hsem : p0.reserve = p0.connList.length := inv.sem
  have htot : ((([] : List MYSQL_ptr).length : Int)) + p0.connList.length = p0.m_MaxConn :=
    inv.total
  simp only [List.length_nil, Nat.cast_zero, zero_add] at htot
  exact ⟨⟨hfree, by omega, hsem⟩, ⟨by omega, inv.free_nonnull⟩⟩

theorem DestroyPool_closed (p : connection_pool) : p.DestroyPool.2 = p.connList := by
  have hfold : ∀ (l acc : List MYSQL_ptr),
      l.foldl (fun (closed : List MYSQL_ptr) con => closed ++ [con]) acc = acc ++ l := by
    intro l
    induction l with
    | nil => intro acc; simp
    | cons a l ih => intro acc; simp [List.foldl_cons, ih]
  unfold connection_pool.DestroyPool
  by_cases h : p.connList.length > 0
  · simp only [h, if_true]
    simpa using hfold p.connList []
  · simp only [h, if_false]
    have : p.connList.length = 0 := by omega
    exact (List.length_eq_zero.mp this).symm

theorem pool_call_bound {p p' : connection_pool} (c : PoolCall) (hb : PoolBound p)
    (hc : pool_call p c = some p') : PoolBound p' := by
  obtain ⟨hge, hnn⟩ := hb
  cases c with
  | GetConnection =>
    unfold pool_call connection_pool.GetConnection at hc
    cases hl : p.connList with
    | nil =>
      simp only [hl, List.length_nil, if_true, Option.some.injEq] at hc
      subst hc
      exact ⟨hge, hnn⟩
    | cons con rest =>
      rw [hl] at hge hnn
      simp only [List.length_cons] at hge
      have hr : ¬ p.reserve = 0 := by omega
      have hz : ¬ (0 = rest.length + 1) := by omega
      simp only [hl, List.length_cons, hr, hz, if_false, Option.some.injEq] at hc
      subst hc
      refine ⟨?_, fun hm => hnn (List.mem_cons_of_mem _ hm)⟩
      show rest.length ≤ p.reserve - 1
      omega
  | ReleaseConnection con =>
    simp only [pool_call, Option.some.injEq] at hc
    subst hc
    by_cases hn : NULL = con
    · simp only [connection_pool.ReleaseConnection, hn, if_true]
      exact ⟨hge, hnn⟩
    · simp only [connection_pool.ReleaseConnection, hn, if_false]
      refine ⟨?_, ?_⟩
      · simp only [List.length_append, List.length_singleton]; omega
      · simp only [List.mem_append, List.mem_singleton, not_or]
        exact ⟨hnn, hn⟩
  | DestroyPool =>
    simp only [pool_call, Option.some.injEq] at hc
    subst hc
    unfold connection_pool.DestroyPool
    by_cases h : p.connList.length > 0
    · simp only [h, if_true]
      exact ⟨by simp, by simp⟩
    · simp only [h, if_false]
      exact ⟨hge, hnn⟩

theorem pool_call_counts {p p' : connection_pool} (c : PoolCall) (hk : PoolCounts p)
    (hd : c ≠ .DestroyPool) (hc : pool_call p c = some p') : PoolCounts p' := by
  obtain ⟨hfree, htot, hsem⟩ := hk
  cases c with
  | GetConnection =>
    unfold pool_call connection_pool.GetConnection at hc
    cases hl : p.connList with
    | nil =>
      simp only [hl, List.length_nil, if_true, Option.some.injEq] at hc
      subst hc
      exact ⟨hfree, htot, hsem⟩
    | cons con rest =>
      rw [hl] at hfree hsem
      simp only [List.length_cons, Nat.cast_add, Nat.cast_one] at hfree hsem
      have hr : ¬ p.reserve = 0 := by omega
      have hz : ¬ (0 = rest.length + 1) := by omega
      simp only [hl, List.length_cons, hr, hz, if_false, Option.some.injEq] at hc
      subst hc
      refine ⟨?_, ?_, ?_⟩
      · show p.m_FreeConn - 1 = (rest.length : Int)
        omega
      · show p.m_FreeConn - 1 + (p.m_CurConn + 1) = p.m_MaxConn
        omega
      · show p.reserve - 1 = rest.length
        omega
  | ReleaseConnection con =>
    simp only [pool_call, Option.some.injEq] at hc
    subst hc
    by_cases hn : NULL = con
    · simp only [connection_pool.ReleaseConnection, hn, if_true]
      exact ⟨hfree, htot, hsem⟩
    · simp only [connection_pool.ReleaseConnection, hn, if_false]
      refine ⟨?_, ?_, ?_⟩
      · simp only [List.length_append, List.length_singleton, Nat.cast_add, Nat.cast_one]
        omega
      · show p.m_FreeConn + 1 + (p.m_CurConn - 1) = p.m_MaxConn
        omega
      · simp only [List.length_append, List.length_singleton]; omega
  | DestroyPool => exact absurd rfl hd

theorem pool_calls_bound (cs : List PoolCall) :
    ∀ (p p' : connection_pool), PoolBound p → pool_calls p cs = some p' → PoolBound p' := by
  induction cs with
  | nil =>
    intro p p' h hr
    simp only [pool_calls, Option.some.injEq] at hr
    exact hr ▸ h
  | cons c cs ih =>
    intro p p' h hr
    simp only [pool_calls] at hr
    cases hstep : pool_call p c with
    | none => simp [hstep] at hr
    | some p1 =>
      simp only [hstep] at hr
      exact ih p1 p' (pool_call_bound c h hstep) hr

theorem pool_calls_counts (cs : List PoolCall) :
    ∀ (p p' : connection_pool), PoolCounts p → (∀ c ∈ cs, c ≠ .DestroyPool) →
      pool_calls p cs = some p' → PoolCounts p' := by
  induction cs with
  | nil =>
    intro p p' h _ hr
    simp only [pool_calls, Option.some.injEq] at hr
    exact hr ▸ h
  | cons c cs ih =>
    intro p p' h hd hr
    simp only [pool_calls] at hr
    cases hstep : pool_call p c with
    | none => simp [hstep] at hr
    | some p1 =>
      simp only [hstep] at hr
      exact ih p1 p' (pool_call_counts c h (hd c (List.mem_cons_self _ _)) hstep)
        (fun d hm => hd d (List.mem_cons_of_mem _ hm)) hr

theorem pool_call_max {p p' : connection_pool} (c : PoolCall)
    (hc : pool_call p c = some p') : p'.m_MaxConn = p.m_MaxConn := by
  cases c with
  | GetConnection =>
    unfold pool_call connection_pool.GetConnection at hc
    cases hl : p.connList with
    | nil =>
      simp only [hl, List.length_nil, if_true, Option.some.injEq] at hc
      rw [← hc]
    | cons con rest =>
      have hz : ¬ (0 = rest.length + 1) := by omega
      by_cases hr : p.reserve = 0
      · simp [hl, hr] at hc
      · simp only [hl, List.length_cons, hr, hz, if_false, Option.some.injEq] at hc
        rw [← hc]
  | ReleaseConnection con =>
    simp only [pool_call, Option.some.injEq] at hc
    rw [← hc]
    unfold connection_pool.ReleaseConnection
    split <;> rfl
  | DestroyPool =>
    simp only [pool_call, Option.some.injEq] at hc
    rw [← hc]
    unfold connection_pool.DestroyPool
    split <;> rfl

theorem pool_calls_max (cs : List PoolCall) :
    ∀ (p p' : connection_pool), pool_calls p cs = some p' → p'.m_MaxConn = p.m_MaxConn := by
  induction cs with
  | nil => intro p p' hr; simp only [pool_calls, Option.some.injEq] at hr; rw [hr]
  | cons c cs ih =>
    intro p p' hr
    simp only [pool_calls] at hr
    cases hstep : pool_call p c with
    | none => simp [hstep] at hr
    | some p1 =>
      simp only [hstep] at hr
      rw [ih p1 p' hr, pool_call_max c hstep]

/-- C12. `ReleaseConnection(h)` returns false iff `h` is null and then leaves
the pool as it is; for every non-null `h`, whatever its provenance, it returns
true, appends `h` to the free list, adds 1 to `m_FreeConn`, takes 1 from
`m_CurConn` and adds 1 to the semaphore.  Hence with one handle out
(`m_FreeConn + 1 = m_MaxConn`) releasing it twice leaves
`m_FreeConn = m_MaxConn + 1`, above capacity. -/
theorem ReleaseConnection_checks_only_null (p : connection_pool) (h : MYSQL_ptr) :
    ((p.ReleaseConnection h).1 = false ↔ h = NULL) ∧
    (h = NULL → p.ReleaseConnection h = (false, p)) ∧
    (h ≠ NULL → p.ReleaseConnection h =
      (true, { p with connList := p.connList ++ [h], m_FreeConn := p.m_FreeConn + 1,
                      m_CurConn := p.m_CurConn - 1, reserve := p.reserve + 1 })) ∧
    (h ≠ NULL → p.m_FreeConn + 1 = p.m_MaxConn →
      ((p.ReleaseConnection h).2.ReleaseConnection h).2.m_FreeConn = p.m_MaxConn + 1 ∧
      ((p.ReleaseConnection h).2.ReleaseConnection h).2.m_FreeConn
        > ((p.ReleaseConnection h).2.ReleaseConnection h).2.m_MaxConn ∧
      ((p.ReleaseConnection h).2.ReleaseConnection h).2.connList = p.connList ++ [h, h]) := by
  by_cases hn : NULL = h
  · subst hn
    simp [connection_pool.ReleaseConnection]
  · have hne : h ≠ NULL := fun e => hn e.symm
    have hrel : p.ReleaseConnection h =
        (true, { p with connList := p.connList ++ [h], m_FreeConn := p.m_FreeConn + 1,
                        m_CurConn := p.m_CurConn - 1, reserve := p.reserve + 1 }) := by
      simp only [connection_pool.ReleaseConnection, hn, if_false]
    refine ⟨?_, fun e => absurd e hne, fun _ => hrel, fun _ hout => ?_⟩
    · rw [hrel]; simp [hne]
    · rw [hrel]
      simp only [connection_pool.ReleaseConnection, hn, if_false]
      refine ⟨?_, ?_, ?_⟩
      · show p.m_FreeConn + 1 + 1 = p.m_MaxConn + 1
        omega
      · show p.m_FreeConn + 1 + 1 > p.m_MaxConn
        omega
      · show p.connList ++ [h] ++ [h] = p.connList ++ [h, h]
        simp

/-- C12 on the pool of capacity 2 with handle 1 out: releasing 1 twice gives
`m_FreeConn = 3`, `m_CurConn = -1`, semaphore 3 and free list 2, 1, 1. -/
theorem ReleaseConnection_checks_only_null_witness :
    (⟨2, 1, 1, [2], 1⟩ : connection_pool).ReleaseConnection 1 = (true, ⟨2, 0, 2, [2, 1], 2⟩) ∧
    (⟨2, 0, 2, [2, 1], 2⟩ : connection_pool).ReleaseConnection 1
      = (true, ⟨2, -1, 3, [2, 1, 1], 3⟩) ∧
    (((⟨2, 1, 1, [2], 1⟩ : connection_pool).ReleaseConnection 1).2.ReleaseConnection 1).2.m_FreeConn
      = 2 + 1 :=
  ⟨by decide, by decide,
    ((ReleaseConnection_checks_only_null ⟨2, 1, 1, [2], 1⟩ 1).2.2.2 (by decide) (by decide)).1⟩

/-- C13. In every state reached from an initialised pool by completed
`GetConnection` and `ReleaseConnection` calls, in any order and with any
arguments, `m_FreeConn` is the length of the free list and
`m_FreeConn + m_CurConn = m_MaxConn`. -/
theorem counters_add_up_to_capacity (MaxConn : Int) (mysql_init : Nat → MYSQL_ptr)
    (mysql_real_connect : Nat → MYSQL_ptr → MYSQL_ptr) (p0 : connection_pool)
    (hinit : connection_pool.construct.init MaxConn mysql_init mysql_real_connect = some p0)
    (calls : List PoolCall) (hcalls : ∀ c ∈ calls, c ≠ .DestroyPool) (p : connection_pool)
    (hrun : pool_calls p0 calls = some p) :
    p.m_FreeConn = (p.connList.length : Int) ∧ p.m_FreeConn + p.m_CurConn = p.m_MaxConn ∧
    p.m_MaxConn = p0.m_MaxConn ∧ ((p.connList.length : Int) + p.m_CurConn = p.m_MaxConn) := by
  have hk := pool_calls_counts calls p0 p
    (pool_counts_init MaxConn mysql_init mysql_real_connect p0 hinit).1 hcalls hrun
  refine ⟨hk.free, hk.total, pool_calls_max calls p0 p hrun, ?_⟩
  rw [← hk.free]; exact hk.total

/-- C13 on the pool of handles 1 and 2 under an undisciplined sequence:
acquire, release 1, release 1 (again), release of the foreign handle 9. -/
theorem counters_add_up_to_capacity_witness :
    pool_calls ⟨2, 0, 2, [1, 2], 2⟩
        [.GetConnection, .ReleaseConnection 1, .ReleaseConnection 1, .ReleaseConnection 9]
      = some ⟨2, -2, 4, [2, 1, 1, 9], 4⟩ ∧
    ((4 : Int) = (([2, 1, 1, 9] : List MYSQL_ptr).length : Int) ∧ (4 : Int) + (-2) = 2 ∧
      (2 : Int) = 2 ∧ ((([2, 1, 1, 9] : List MYSQL_ptr).length : Int) + (-2) = 2)) :=
  ⟨by decide,
    counters_add_up_to_capacity 2 (fun i => i + 1) (fun _ con => con) ⟨2, 0, 2, [1, 2], 2⟩
      (by decide)
      [.GetConnection, .ReleaseConnection 1, .ReleaseConnection 1, .ReleaseConnection 9]
      (by decide) ⟨2, -2, 4, [2, 1, 1, 9], 4⟩ (by decide)⟩

/-- C14, as stated, fails: `DestroyPool` on the initialised pool of handles 1
and 2 empties the free list and leaves the semaphore at 2. -/
theorem DestroyPool_keeps_semaphore :
    connection_pool.construct.init 2 (fun i => i + 1) (fun _ con => con)
      = some ⟨2, 0, 2, [1, 2], 2⟩ ∧
    pool_calls ⟨2, 0, 2, [1, 2], 2⟩ [.DestroyPool] = some ⟨2, 0, 0, [], 2⟩ ∧
    (⟨2, 0, 0, [], 2⟩ : connection_pool).reserve
      ≠ (⟨2, 0, 0, [], 2⟩ : connection_pool).connList.length := by
  decide

/-- C14, amended. After any sequence of completed `GetConnection` and
`ReleaseConnection` calls on an initialised pool the semaphore count equals the
length of the free list; `DestroyPool` empties the free list without touching
the semaphore, so after sequences that contain it the count is at least the
length of the free list. -/
theorem semaphore_tracks_free_list (MaxConn : Int) (mysql_init : Nat → MYSQL_ptr)
    (mysql_real_connect : Nat → MYSQL_ptr → MYSQL_ptr) (p0 : connection_pool)
    (hinit : connection_pool.construct.init MaxConn mysql_init mysql_real_connect = some p0)
    (calls : List PoolCall) (p : connection_pool) (hrun : pool_calls p0 calls = some p) :
    ((∀ c ∈ calls, c ≠ .DestroyPool) → p.reserve = p.connList.length) ∧
    p.connList.length ≤ p.reserve ∧
    (p.DestroyPool.1.reserve = p.reserve ∧ p.DestroyPool.1.connList = []) := by
  have h0 := pool_counts_init MaxConn mysql_init mysql_real_connect p0 hinit
  refine ⟨fun hc => (pool_calls_counts calls p0 p h0.1 hc hrun).sem,
    (pool_calls_bound calls p0 p h0.2 hrun).sem_ge, ?_⟩
  unfold connection_pool.DestroyPool
  by_cases h : p.connList.length > 0
  · simp only [h, if_true, and_self]
  · simp only [h, if_false, true_and]
    exact List.length_eq_zero.mp (by omega)

/-- C14 amended, on the pool of handles 1 and 2: acquire, release 1, acquire. -/
theorem semaphore_tracks_free_list_witness :
    pool_calls ⟨2, 0, 2, [1, 2], 2⟩ [.GetConnection, .ReleaseConnection 1, .GetConnection]
      = some ⟨2, 1, 1, [1], 1⟩ ∧
    (((∀ c ∈ [PoolCall.GetConnection, .ReleaseConnection 1, .GetConnection],
        c ≠ .DestroyPool) →
      (⟨2, 1, 1, [1], 1⟩ : connection_pool).reserve
        = (⟨2, 1, 1, [1], 1⟩ : connection_pool).connList.length) ∧
      (⟨2, 1, 1, [1], 1⟩ : connection_pool).connList.length
        ≤ (⟨2, 1, 1, [1], 1⟩ : connection_pool).reserve ∧
      ((⟨2, 1, 1, [1], 1⟩ : connection_pool).DestroyPool.1.reserve
          = (⟨2, 1, 1, [1], 1⟩ : connection_pool).reserve ∧
        (⟨2, 1, 1, [1], 1⟩ : connection_pool).DestroyPool.1.connList = [])) :=
  ⟨by decide,
    semaphore_tracks_free_list 2 (fun i => i + 1) (fun _ con => con) ⟨2, 0, 2, [1, 2], 2⟩
      (by decide) [.GetConnection, .ReleaseConnection 1, .GetConnection] ⟨2, 1, 1, [1], 1⟩
      (by decide)⟩

/-! ## Distinct handles, the guard, teardown and start-up -/

theorem pool_step_nodup {c : Int} {s s' : PoolTrace} (op : PoolOp) (h : PoolInv c s)
    (hd : (s.pool.connList ++ s.borrowed).Nodup) (hs : pool_step s op = some s') :
    (s'.pool.connList ++ s'.borrowed).Nodup := by
  cases op with
  | acquire =>
    unfold pool_step connection_pool.GetConnection at hs
    cases hl : s.pool.connList with
    | nil =>
      simp only [hl, List.length_nil, if_true, Option.some.injEq] at hs
      subst hs
      simpa [hl] using hd
    | cons con rest =>
      have hr : ¬ s.pool.reserve = 0 := by rw [h.sem, hl]; simp
      have hcon : con ≠ NULL := by
        intro e
        apply h.free_nonnull
        rw [hl, e]
        exact List.mem_cons_self _ _
      have hz : ¬ (0 = rest.length + 1) := by omega
      simp only [hl, List.length_cons, hr, hz, if_false, hcon, Option.some.injEq] at hs
      subst hs
      rw [hl] at hd
      show (rest ++ con :: s.borrowed).Nodup
      exact List.nodup_middle.mpr (by simpa using hd)
  | release con =>
    unfold pool_step at hs
    by_cases hm : con ∈ s.borrowed
    · simp only [hm, if_true, Option.some.injEq] at hs
      have hcon : ¬ NULL = con := fun e => h.borrowed_nonnull (e ▸ hm)
      subst hs
      simp only [connection_pool.ReleaseConnection, hcon, if_false]
      show (s.pool.connList ++ [con] ++ s.borrowed.erase con).Nodup
      have hperm : (s.pool.connList ++ [con] ++ s.borrowed.erase con).Perm
          (s.pool.connList ++ s.borrowed) := by
        rw [List.append_assoc]
        exact List.Perm.append_left _ (List.perm_cons_erase hm).symm
      exact hperm.nodup_iff.mpr hd
    · simp [hm] at hs

theorem pool_run_nodup {c : Int} (ops : List PoolOp) :
    ∀ (s s' : PoolTrace), PoolInv c s → (s.pool.connList ++ s.borrowed).Nodup →
      pool_run s ops = some s' → (s'.pool.connList ++ s'.borrowed).Nodup := by
  induction ops with
  | nil =>
    intro s s' _ hd hr
    simp only [pool_run, Option.some.injEq] at hr
    exact hr ▸ hd
  | cons op ops ih =>
    intro s s' h hd hr
    simp only [pool_run] at hr
    cases hstep : pool_step s op with
    | none => simp [hstep] at hr
    | some s1 =>
      simp only [hstep] at hr
      exact ih s1 s' (pool_step_inv op h hstep) (pool_step_nodup op h hd hstep) hr

/-- C15. When `init` put pairwise distinct handles in the free list and every
release gives back a currently borrowed handle, in every state reached the free
list has no duplicate, shares no handle with the borrowed ones (which are
distinct too), and whatever `GetConnection` returns next is not among the
handles borrowed at that moment. -/
theorem no_handle_held_twice (MaxConn : Int) (mysql_init : Nat → MYSQL_ptr)
    (mysql_real_connect : Nat → MYSQL_ptr → MYSQL_ptr) (p0 : connection_pool)
    (hinit : connection_pool.construct.init MaxConn mysql_init mysql_real_connect = some p0)
    (hdistinct : p0.connList.Nodup) (ops : List PoolOp) (s : PoolTrace)
    (hrun : pool_run ⟨p0, []⟩ ops = some s) :
    s.pool.connList.Nodup ∧ s.borrowed.Nodup ∧
    (∀ h ∈ s.pool.connList, h ∉ s.borrowed) ∧
    (∀ (con : MYSQL_ptr) (p : connection_pool),
      s.pool.GetConnection = .ret (con, p) → con ∉ s.borrowed) := by
  have inv0 := pool_inv_init MaxConn mysql_init mysql_real_connect p0 hinit
  have inv := pool_run_inv ops _ s inv0 hrun
  have hnd := pool_run_nodup ops _ s inv0 (by simpa using hdistinct) hrun
  obtain ⟨h1, h2, h3⟩ := List.nodup_append.mp hnd
  refine ⟨h1, h2, fun h hm hb => h3 hm hb, ?_⟩
  intro con p hg
  unfold connection_pool.GetConnection at hg
  cases hl : s.pool.connList with
  | nil =>
    simp only [hl, List.length_nil, if_true, Res.ret.injEq, Prod.mk.injEq] at hg
    rw [← hg.1]
    exact inv.borrowed_nonnull
  | cons c rest =>
    have hr : ¬ s.pool.reserve = 0 := by rw [inv.sem, hl]; simp
    have hz : ¬ (0 = rest.length + 1) := by omega
    simp only [hl, List.length_cons, hr, hz, if_false, Res.ret.injEq, Prod.mk.injEq] at hg
    rw [← hg.1]
    exact fun hb => h3 (by rw [hl]; exact List.mem_cons_self _ _) hb

/-- C15 on the pool of handles 1 and 2 after acquire, acquire, release 1. -/
theorem no_handle_held_twice_witness :
    pool_run ⟨⟨2, 0, 2, [1, 2], 2⟩, []⟩ [.acquire, .acquire, .release 1]
      = some ⟨⟨2, 1, 1, [1], 1⟩, [2]⟩ ∧
    (([1] : List MYSQL_ptr).Nodup ∧ ([2] : List MYSQL_ptr).Nodup ∧
      (∀ h ∈ ([1] : List MYSQL_ptr), h ∉ ([2] : List MYSQL_ptr)) ∧
      (∀ (con : MYSQL_ptr) (p : connection_pool),
        (⟨2, 1, 1, [1], 1⟩ : connection_pool).GetConnection = .ret (con, p) →
          con ∉ ([2] : List MYSQL_ptr))) :=
  ⟨by decide,
    no_handle_held_twice 2 (fun i => i + 1) (fun _ con => con) ⟨2, 0, 2, [1, 2], 2⟩
      (by decide) (by decide) [.acquire, .acquire, .release 1] ⟨⟨2, 1, 1, [1], 1⟩, [2]⟩
      (by decide)⟩

/-- C16. In every state reached from an initialised pool by completed calls, a
guard constructed and then destroyed makes one `ReleaseConnection` call, with
the handle its constructor obtained.  With a free handle `h` at the head of the
free list, the constructor obtains `h` and after the destructor `m_FreeConn`,
`m_CurConn`, `m_MaxConn` and the semaphore are back at their values and the free
list is the old one with `h` moved to the tail; with an empty free list the
constructor obtains `NULL`, the release fails and the pool is unchanged. -/
theorem guard_returns_its_handle (MaxConn : Int) (mysql_init : Nat → MYSQL_ptr)
    (mysql_real_connect : Nat → MYSQL_ptr → MYSQL_ptr) (p0 : connection_pool)
    (hinit : connection_pool.construct.init MaxConn mysql_init mysql_real_connect = some p0)
    (calls : List PoolCall) (p : connection_pool) (hrun : pool_calls p0 calls = some p) :
    (∀ (h : MYSQL_ptr) (t : List MYSQL_ptr), p.connList = h :: t →
      ∃ p1 p2 : connection_pool,
        connectionRAII.construct p = .ret (h, ⟨h⟩, p1) ∧
        connectionRAII.destruct ⟨h⟩ p1 = ([h], p2) ∧
        p1.ReleaseConnection h = (true, p2) ∧
        p2.connList = t ++ [h] ∧ p2.m_FreeConn = p.m_FreeConn ∧
        p2.m_CurConn = p.m_CurConn ∧ p2.reserve = p.reserve ∧ p2.m_MaxConn = p.m_MaxConn) ∧
    (p.connList = [] →
      connectionRAII.construct p = .ret (NULL, ⟨NULL⟩, p) ∧
      connectionRAII.destruct ⟨NULL⟩ p = ([NULL], p) ∧
      p.ReleaseConnection NULL = (false, p)) := by
  have hb := pool_calls_bound calls p0 p
    (pool_counts_init MaxConn mysql_init mysql_real_connect p0 hinit).2 hrun
  constructor
  · intro h t hl
    have hge := hb.sem_ge
    rw [hl] at hge
    simp only [List.length_cons] at hge
    have hr : ¬ p.reserve = 0 := by omega
    have hz : ¬ (0 = t.length + 1) := by omega
    have hn : ¬ NULL = h := by
      intro e
      apply hb.nonnull
      rw [hl, e]
      exact List.mem_cons_self _ _
    have hget : p.GetConnection =
        .ret (h, { p with reserve := p.reserve - 1, connList := t,
                          m_FreeConn := p.m_FreeConn - 1, m_CurConn := p.m_CurConn + 1 }) := by
      simp only [connection_pool.GetConnection, hl, List.length_cons, hr, hz, if_false]
    have hrel : ∀ r : connection_pool, r.ReleaseConnection h =
        (true, { r with connList := r.connList ++ [h], m_FreeConn := r.m_FreeConn + 1,
                        m_CurConn := r.m_CurConn - 1, reserve := r.reserve + 1 }) := by
      intro r
      simp only [connection_pool.ReleaseConnection, hn, if_false]
    refine ⟨{ p with reserve := p.reserve - 1, connList := t,
                     m_FreeConn := p.m_FreeConn - 1, m_CurConn := p.m_CurConn + 1 },
      { p with reserve := p.reserve - 1 + 1, connList := t ++ [h],
               m_FreeConn := p.m_FreeConn - 1 + 1, m_CurConn := p.m_CurConn + 1 - 1 },
      by simp only [connectionRAII.construct, hget], ?_, ?_, rfl, ?_, ?_, ?_, rfl⟩
    · simp only [connectionRAII.destruct, hrel]
    · simp only [hrel]
    · show p.m_FreeConn - 1 + 1 = p.m_FreeConn
      omega
    · show p.m_CurConn + 1 - 1 = p.m_CurConn
      omega
    · show p.reserve - 1 + 1 = p.reserve
      omega
  · intro hl
    have hget : p.GetConnection = .ret (NULL, p) := by
      simp [connection_pool.GetConnection, hl]
    refine ⟨by simp only [connectionRAII.construct, hget], ?_, ?_⟩
    · simp [connectionRAII.destruct, connection_pool.ReleaseConnection]
    · simp [connection_pool.ReleaseConnection]

/-- C16 on the pool of handles 1 and 2: the guard takes 1 and puts it back at
the tail. -/
theorem guard_returns_its_handle_witness :
    pool_calls ⟨2, 0, 2, [1, 2], 2⟩ [] = some ⟨2, 0, 2, [1, 2], 2⟩ ∧
    connectionRAII.construct ⟨2, 0, 2, [1, 2], 2⟩ = .ret (1, ⟨1⟩, ⟨2, 1, 1, [2], 1⟩) ∧
    connectionRAII.destruct ⟨1⟩ ⟨2, 1, 1, [2], 1⟩ = ([1], ⟨2, 0, 2, [2, 1], 2⟩) ∧
    (∃ p1 p2 : connection_pool,
      connectionRAII.construct ⟨2, 0, 2, [1, 2], 2⟩ = .ret (1, ⟨1⟩, p1) ∧
      connectionRAII.destruct ⟨1⟩ p1 = ([1], p2) ∧
      p1.ReleaseConnection 1 = (true, p2) ∧
      p2.connList = [2] ++ [1] ∧ p2.m_FreeConn = 2 ∧
      p2.m_CurConn = 0 ∧ p2.reserve = 2 ∧ p2.m_MaxConn = 2) :=
  ⟨by decide, by decide, by decide,
    (guard_returns_its_handle 2 (fun i => i + 1) (fun _ con => con) ⟨2, 0, 2, [1, 2], 2⟩
      (by decide) [] ⟨2, 0, 2, [1, 2], 2⟩ (by decide)).1 1 [2] rfl⟩

/-- C17, as stated, fails on states the pool reaches from the initialised pool
of handles 1 and 2.  With both handles borrowed (free list empty) `DestroyPool`
changes nothing, so `m_CurConn` stays at 2.  After acquire, release 1,
release 1 the free list is 2, 1, 1 and handle 1 is closed twice.  After
acquire, acquire, release 1, release 1 the next `GetConnection` hands out
handle 1 while a copy of it stays in the free list, and `DestroyPool` closes
that handle, which is borrowed. -/
theorem DestroyPool_keeps_counters_and_closes_duplicates :
    (pool_calls ⟨2, 0, 2, [1, 2], 2⟩ [.GetConnection, .GetConnection]
        = some ⟨2, 2, 0, [], 0⟩ ∧
      (⟨2, 2, 0, [], 0⟩ : connection_pool).DestroyPool = (⟨2, 2, 0, [], 0⟩, []) ∧
      ¬ ((⟨2, 2, 0, [], 0⟩ : connection_pool).DestroyPool.1.m_FreeConn = 0 ∧
          (⟨2, 2, 0, [], 0⟩ : connection_pool).DestroyPool.1.m_CurConn = 0)) ∧
    (pool_calls ⟨2, 0, 2, [1, 2], 2⟩
          [.GetConnection, .ReleaseConnection 1, .ReleaseConnection 1]
        = some ⟨2, -1, 3, [2, 1, 1], 3⟩ ∧
      (⟨2, -1, 3, [2, 1, 1], 3⟩ : connection_pool).DestroyPool.2 = [2, 1, 1] ∧
      (⟨2, -1, 3, [2, 1, 1], 3⟩ : connection_pool).DestroyPool.2.count 1 = 2) ∧
    (pool_calls ⟨2, 0, 2, [1, 2], 2⟩
          [.GetConnection, .GetConnection, .ReleaseConnection 1, .ReleaseConnection 1]
        = some ⟨2, 0, 2, [1, 1], 2⟩ ∧
      (⟨2, 0, 2, [1, 1], 2⟩ : connection_pool).GetConnection = .ret (1, ⟨2, 1, 1, [1], 1⟩) ∧
      (⟨2, 1, 1, [1], 1⟩ : connection_pool).DestroyPool.2 = [1]) := by
  decide

/-- C17, amended. For every pool state, after `DestroyPool` the free list is
empty; if it was not empty before, `m_FreeConn` and `m_CurConn` are 0, and if
it was empty the pool is left as it is; `mysql_close` is called once per entry
of the old free list, in list order, and on nothing else.  In every state
reached from an initialisation that put pairwise distinct handles in the free
list, by atomic acquire and release steps that only release currently borrowed
handles, every handle of the free list is thus closed exactly once and no
borrowed handle is closed. -/
theorem DestroyPool_closes_free_list (p : connection_pool) :
    p.DestroyPool.1.connList = [] ∧
    (p.connList ≠ [] → p.DestroyPool.1.m_FreeConn = 0 ∧ p.DestroyPool.1.m_CurConn = 0) ∧
    (p.connList = [] → p.DestroyPool.1 = p) ∧
    p.DestroyPool.2 = p.connList ∧
    (∀ (MaxConn : Int) (mysql_init : Nat → MYSQL_ptr)
        (mysql_real_connect : Nat → MYSQL_ptr → MYSQL_ptr) (p0 : connection_pool)
        (ops : List PoolOp) (borrowed : List MYSQL_ptr),
      connection_pool.construct.init MaxConn mysql_init mysql_real_connect = some p0 →
      p0.connList.Nodup → pool_run ⟨p0, []⟩ ops = some ⟨p, borrowed⟩ →
      (∀ h ∈ p.connList, p.DestroyPool.2.count h = 1) ∧
      (∀ h ∈ borrowed, h ∉ p.DestroyPool.2)) := by
  have hclosed := DestroyPool_closed p
  refine ⟨?_, ?_, ?_, hclosed, ?_⟩
  · unfold connection_pool.DestroyPool
    by_cases h : p.connList.length > 0
    · simp only [h, if_true]
    · simp only [h, if_false]
      exact List.length_eq_zero.mp (by omega)
  · intro hne
    have h : p.connList.length > 0 := List.length_pos.mpr hne
    unfold connection_pool.DestroyPool
    simp only [h, if_true, and_self]
  · intro he
    unfold connection_pool.DestroyPool
    simp [he]
  · intro MaxConn mysql_init mysql_real_connect p0 ops borrowed hinit hdistinct hrun
    have inv0 := pool_inv_init MaxConn mysql_init mysql_real_connect p0 hinit
    have hnd := pool_run_nodup ops _ _ inv0 (by simpa using hdistinct) hrun
    obtain ⟨h1, _, h3⟩ := List.nodup_append.mp hnd
    rw [hclosed]
    exact ⟨fun h hm => List.count_eq_one_of_mem h1 hm, fun h hb hc => h3 hc hb⟩

/-- C17 amended, on the pool of handles 1 and 2 after one acquire: handle 1 is
borrowed, `DestroyPool` closes handle 2 once and zeroes the counters. -/
theorem DestroyPool_closes_free_list_witness :
    connection_pool.construct.init 2 (fun i => i + 1) (fun _ con => con)
      = some ⟨2, 0, 2, [1, 2], 2⟩ ∧
    pool_run ⟨⟨2, 0, 2, [1, 2], 2⟩, []⟩ [.acquire] = some ⟨⟨2, 1, 1, [2], 1⟩, [1]⟩ ∧
    (⟨2, 1, 1, [2], 1⟩ : connection_pool).DestroyPool = (⟨2, 0, 0, [], 1⟩, [2]) ∧
    ((∀ h ∈ ([2] : List MYSQL_ptr),
        (⟨2, 1, 1, [2], 1⟩ : connection_pool).DestroyPool.2.count h = 1) ∧
      (∀ h ∈ ([1] : List MYSQL_ptr),
        h ∉ (⟨2, 1, 1, [2], 1⟩ : connection_pool).DestroyPool.2)) :=
  ⟨by decide, by decide, by decide,
    (DestroyPool_closes_free_list ⟨2, 1, 1, [2], 1⟩).2.2.2.2 2 (fun i => i + 1)
      (fun _ con => con) ⟨2, 0, 2, [1, 2], 2⟩ [.acquire] [1] (by decide) (by decide)
      (by decide)⟩

/-- C19. `init` on a fresh pool with requested count `MaxConn`: when an open is
attempted and the first one fails (either library call returns `NULL`), `init`
exits; whenever `init` returns, every one of the `MaxConn` opens succeeded, the
free list holds the opened handles in open order, `m_CurConn` is 0, and
`m_FreeConn`, `m_MaxConn` and the semaphore all equal the number of handles in
the free list. -/
theorem init_exits_or_fills_pool (MaxConn : Int) (mysql_init : Nat → MYSQL_ptr)
    (mysql_real_connect : Nat → MYSQL_ptr → MYSQL_ptr) :
    (0 < MaxConn → (mysql_init 0 = NULL ∨ mysql_real_connect 0 (mysql_init 0) = NULL) →
      connection_pool.construct.init MaxConn mysql_init mysql_real_connect = none) ∧
    (∀ p : connection_pool,
      connection_pool.construct.init MaxConn mysql_init mysql_real_connect = some p →
      p.connList = opened mysql_init mysql_real_connect MaxConn.toNat ∧
      (∀ i < MaxConn.toNat, mysql_init i ≠ NULL ∧ mysql_real_connect i (mysql_init i) ≠ NULL) ∧
      p.m_CurConn = 0 ∧
      p.m_FreeConn = (p.connList.length : Int) ∧ p.m_MaxConn = (p.connList.length : Int) ∧
      p.reserve = p.connList.length ∧ p.connList.length = MaxConn.toNat) := by
  constructor
  · intro hpos hfail
    cases hr : connection_pool.construct.init MaxConn mysql_init mysql_real_connect with
    | none => rfl
    | some p =>
      obtain ⟨_, h2, _⟩ := init_result MaxConn mysql_init mysql_real_connect p hr
      have h0 := h2 0 (by omega)
      rcases hfail with hf | hf
      · exact absurd hf h0.1
      · exact absurd hf h0.2
  · intro p hr
    obtain ⟨h1, h2, h3, h4, h5, h6, h7⟩ := init_result MaxConn mysql_init mysql_real_connect p hr
    exact ⟨h1, h2, h3, by rw [h4, h7], by rw [h5, h7], by rw [h6, h7], h7⟩

/-- C19 with three opens yielding 1, 2, 3, and with a first open that fails. -/
theorem init_exits_or_fills_pool_witness :
    connection_pool.construct.init 3 (fun i => i + 1) (fun _ con => con)
      = some ⟨3, 0, 3, [1, 2, 3], 3⟩ ∧
    opened (fun i => i + 1) (fun _ con => con) 3 = [1, 2, 3] ∧
    connection_pool.construct.init 3 (fun i => i) (fun _ con => con) = none ∧
    connection_pool.construct.init 3 (fun i => i + 1) (fun i con => if i = 1 then NULL else con)
      = none :=
  ⟨by decide, by decide,
    (init_exits_or_fills_pool 3 (fun i => i) (fun _ con => con)).1 (by decide) (Or.inl rfl),
    by decide⟩

end TinyWebServer
